import Mathlib

/-!
# BusTub primer trie: `src/include/primer/p0_trie.h`

A shallow embedding of the classes `TrieNode`, `TrieNodeWithValue<T>` and `Trie`, and the
properties of `Insert`, `Remove` and `GetValue` proved about it.

Modelling conventions.

* A `std::string` key is a `List Char`; the pair `(key, start)` passed around by the
  recursive functions of the source is the suffix of `key` that starts at index `start`.
  Indices are `unsigned int` in the source; keys are taken shorter than `2^32`
  characters, so no index wraps. Stack depth and memory are not modelled.
* The C++ static type `T` of a stored value is an element of a type `Ty` of type
  identifiers, and a value of that type is an element of `Val T`. The dynamic type of a
  node object (`TrieNode` or `TrieNodeWithValue<T>`) is the field `value_`: `none` for a
  plain `TrieNode`, `some ⟨T, v⟩` for a `TrieNodeWithValue<T>` whose `value_` is `v`.
* `std::unordered_map<char, std::unique_ptr<TrieNode>>` is an association list. Its
  iteration order is not observable through the operations of the source, and in every
  reachable trie it has one entry for a character at most (`reachable_nodupKeys`).
* A `std::unique_ptr<TrieNode>*` that points into the tree is a `Handle`: the list of key
  characters leading from `root_` to the slot pointed at (`&root_` is the empty list). A
  null pointer is `none`.
* Dereferencing a null pointer aborts the program; an operation that can do so returns an
  `Option`, and `none` is the abort.
* The reader-writer latch is not modelled: the operations are taken one at a time.
-/

namespace bustub

/-! ## Nodes -/

/-- A node object. `value_` is `none` when the object is a plain `TrieNode`, and
`some ⟨T, v⟩` when it is a `TrieNodeWithValue<T>` holding `v`. -/
inductive TrieNode (Ty : Type) (Val : Ty → Type) : Type where
  | mk (key_char_ : Char) (is_end_ : Bool) (children_ : List (Char × TrieNode Ty Val))
      (value_ : Option ((T : Ty) × Val T)) : TrieNode Ty Val

namespace TrieNode

variable {Ty : Type} {Val : Ty → Type}

/-- Field `key_char_`. -/
def key_char_ : TrieNode Ty Val → Char
  | mk k _ _ _ => k

/-- Field `is_end_`. -/
def is_end_ : TrieNode Ty Val → Bool
  | mk _ e _ _ => e

/-- Field `children_`. -/
def children_ : TrieNode Ty Val → List (Char × TrieNode Ty Val)
  | mk _ _ cs _ => cs

/-- Field `value_` of `TrieNodeWithValue<T>`, with the type `T` of the object; `none` for a
plain `TrieNode`. -/
def value_ : TrieNode Ty Val → Option ((T : Ty) × Val T)
  | mk _ _ _ v => v

/-- Constructor `TrieNode(char key_char)`: not an end node, no children. -/
def new (key_char : Char) : TrieNode Ty Val :=
  mk key_char false [] none

/-- Method `HasChild`: `children_.count(key_char) != 0`. -/
def HasChild (n : TrieNode Ty Val) (key_char : Char) : Bool :=
  (n.children_.lookup key_char).isSome

/-- Method `HasChildren`: `!children_.empty()`. -/
def HasChildren (n : TrieNode Ty Val) : Bool :=
  !n.children_.isEmpty

/-- Method `HasMultiChildren`: `children_.size() > 1`. -/
def HasMultiChildren (n : TrieNode Ty Val) : Bool :=
  decide (n.children_.length > 1)

/-- Method `IsEndNode`. -/
def IsEndNode (n : TrieNode Ty Val) : Bool :=
  n.is_end_

/-- Method `GetKeyChar`. -/
def GetKeyChar (n : TrieNode Ty Val) : Char :=
  n.key_char_

/-- Method `SetEndNode`. -/
def SetEndNode (n : TrieNode Ty Val) (is_end : Bool) : TrieNode Ty Val :=
  mk n.key_char_ is_end n.children_ n.value_

/-- Method `GetChildNode`: `none` is `nullptr`; otherwise the node in the slot
`children_[key_char]`. -/
def GetChildNode (n : TrieNode Ty Val) (key_char : Char) : Option (TrieNode Ty Val) :=
  n.children_.lookup key_char

/-- Method `InsertChildNode`. The result `none` is the `nullptr` of the source, and then the
node is unchanged; `some m` is the node after `children_[key_char] = child`, the returned
pointer being the slot for `key_char` of `m`. -/
def InsertChildNode (n : TrieNode Ty Val) (key_char : Char) (child : TrieNode Ty Val) :
    Option (TrieNode Ty Val) :=
  if n.HasChild key_char || key_char != child.key_char_ then none
  else some (mk n.key_char_ n.is_end_ ((key_char, child) :: n.children_) n.value_)

/-- Method `RemoveChildNode`: nothing when there is no entry for `key_char`, otherwise
`children_.erase(key_char)`. -/
def RemoveChildNode (n : TrieNode Ty Val) (key_char : Char) : TrieNode Ty Val :=
  if (n.children_.lookup key_char).isNone then n
  else mk n.key_char_ n.is_end_ (n.children_.filter fun e => e.1 != key_char) n.value_

/-- Assignment through a pointer to the slot `children_[key_char]`: the node in that slot
becomes `m`; the other entries, and the fields of `n` itself, stay. -/
def setChild (n : TrieNode Ty Val) (key_char : Char) (m : TrieNode Ty Val) : TrieNode Ty Val :=
  mk n.key_char_ n.is_end_
    (n.children_.map fun e => if e.1 == key_char then (e.1, m) else e) n.value_

end TrieNode

namespace TrieNodeWithValue

variable {Ty : Type} {Val : Ty → Type}

/-- Constructor `TrieNodeWithValue(TrieNode &&trieNode, T value)`: the move constructor of
`TrieNode` copies `is_end_` and `key_char_` and swaps the (empty) children map of the new
object with the one of `trieNode`; then `SetEndNode(true)` and `value_ = value`. -/
def ofTrieNode (trieNode : TrieNode Ty Val) (T : Ty) (value : Val T) : TrieNode Ty Val :=
  TrieNode.mk trieNode.key_char_ true trieNode.children_ (some ⟨T, value⟩)

/-- The object `trieNode` after it was moved from by `ofTrieNode`: its children map is the
empty one it was swapped with. -/
def movedFrom (trieNode : TrieNode Ty Val) : TrieNode Ty Val :=
  TrieNode.mk trieNode.key_char_ trieNode.is_end_ [] trieNode.value_

/-- Constructor `TrieNodeWithValue(char key_char, T value)`. -/
def new (key_char : Char) (T : Ty) (value : Val T) : TrieNode Ty Val :=
  TrieNode.mk key_char true [] (some ⟨T, value⟩)

end TrieNodeWithValue

/-! ## Handles -/

/-- A non-null `std::unique_ptr<TrieNode>*` into the tree: the key characters on the way from
`root_` to the slot. -/
abbrev Handle := List Char

section Handles

variable {Ty : Type} {Val : Ty → Type}

/-- The node a handle points at (`*h`), read from the tree under `root`; `none` when a slot
on the way does not exist. -/
def deref : Handle → TrieNode Ty Val → Option (TrieNode Ty Val)
  | [], root => some root
  | c :: h, root =>
    match root.GetChildNode c with
    | none => none
    | some m => deref h m

/-- The tree under `root` after the node a handle points at is replaced by `n`: an in-place
change of `*h`. -/
def store : Handle → TrieNode Ty Val → TrieNode Ty Val → TrieNode Ty Val
  | [], _, n => n
  | c :: h, root, n =>
    match root.GetChildNode c with
    | none => root
    | some m => root.setChild c (store h m n)

end Handles

/-! ## The trie -/

/-- Class `Trie`: the root node (the latch is not modelled). -/
structure Trie (Ty : Type) (Val : Ty → Type) where
  root_ : TrieNode Ty Val

namespace Trie

variable {Ty : Type} {Val : Ty → Type}

/-- Constructor `Trie()`: the root is a plain node with key character NUL. -/
def new : Trie Ty Val :=
  ⟨TrieNode.new (Char.ofNat 0)⟩

/-- Method `SearchForKey(key, start, current)`, with `key.drop start` as the first argument
and `*current` as the second. `none` is `nullptr`. -/
def SearchForKey : List Char → TrieNode Ty Val → Option (TrieNode Ty Val)
  | [], current => if current.IsEndNode then some current else none
  | ch :: rest, current =>
    if current.HasChild ch then
      match current.GetChildNode ch with
      | none => none
      | some next_node => SearchForKey rest next_node
    else none

/-- Method `InsertFromNode(key, start, current, value)`, with `key[start]` as `ch`, the rest
of the key after it as the list, and `*current` as the node; the result is `*current`
afterwards. `Insert` calls it with `start < key.length()` only. The result `none` is the
abort when `next_node` is null in the recursive call. -/
def InsertFromNode (T : Ty) (value : Val T) :
    Char → List Char → TrieNode Ty Val → Option (TrieNode Ty Val)
  | ch, [], current =>
    match current.InsertChildNode ch (TrieNodeWithValue.new ch T value) with
    | none => some current
    | some current1 => some current1
  | ch, ch1 :: rest, current =>
    match current.InsertChildNode ch (TrieNode.new ch) with
    | none => none
    | some current1 =>
      match current1.GetChildNode ch with
      | none => none
      | some next_node =>
        match InsertFromNode T value ch1 rest next_node with
        | none => none
        | some next_node1 => some (current1.setChild ch next_node1)

/-- The loop of `Insert`, from index `i` on: the list is `key.drop i` and `current` the
handle held at the top of the iteration. The result is the new root with the value
returned, or `none` for an abort. -/
def Insert.loop (T : Ty) (value : Val T) (root_ : TrieNode Ty Val) :
    List Char → Handle → Option (TrieNode Ty Val × Bool)
  | [], _ => some (root_, false)
  | ch :: rest, current =>
    match deref current root_ with
    | none => none
    | some cur =>
      match cur.GetChildNode ch with
      | none =>
        match InsertFromNode T value ch rest cur with
        | none => none
        | some cur1 => some (store current root_ cur1, true)
      | some search =>
        if rest.isEmpty && !search.IsEndNode then
          let new_node := TrieNodeWithValue.ofTrieNode search T value
          let cur1 := (cur.setChild ch (TrieNodeWithValue.movedFrom search)).RemoveChildNode ch
          let cur2 := (cur1.InsertChildNode ch new_node).getD cur1
          some (store current root_ cur2, true)
        else Insert.loop T value root_ rest (current ++ [ch])

/-- Method `Insert<T>(key, value)`: the trie afterwards and the value returned; `none` is
an abort. -/
def Insert (t : Trie Ty Val) (T : Ty) (key : List Char) (value : Val T) :
    Option (Trie Ty Val × Bool) :=
  if key.length = 0 then some (t, false)
  else
    match SearchForKey key t.root_ with
    | some _ => some (t, false)
    | none =>
      match Insert.loop T value t.root_ key [] with
      | none => none
      | some (root1, b) => some (⟨root1⟩, b)

/-- The loop of `Remove`: the list is the part of the key still to be read, `pre` and `cur`
the two pointers. The result `none` is the `return false` inside the loop. -/
def Remove.loop (root_ : TrieNode Ty Val) :
    List Char → Option Handle → Handle → Option (Option Handle × Handle)
  | [], pre, cur => some (pre, cur)
  | ch :: rest, _, cur =>
    match (deref cur root_).bind (fun n => n.GetChildNode ch) with
    | none => none
    | some _ => Remove.loop root_ rest (some cur) (cur ++ [ch])

/-- The loop of `DeleteNodeIfNeeded`, from index `i` on: the list is `key.drop i`, `cur` the
pointer (`none` when null), `mark` and `idx` the two variables. The result `none` is the
abort when `cur` is null at the top of an iteration. -/
def DeleteNodeIfNeeded.loop (root_ : TrieNode Ty Val) :
    List Char → Nat → Option Handle → Option Handle → Nat → Option (Option Handle × Nat)
  | [], _, _, mark, idx => some (mark, idx)
  | _ :: _, _, none, _, _ => none
  | ch :: rest, i, some cur, mark, idx =>
    match deref cur root_ with
    | none => none
    | some node =>
      let next := if (node.GetChildNode ch).isSome then some (cur ++ [ch]) else none
      if node.HasMultiChildren || node.IsEndNode then
        DeleteNodeIfNeeded.loop root_ rest (i + 1) next (some cur) i
      else
        DeleteNodeIfNeeded.loop root_ rest (i + 1) next mark idx

/-- Method `DeleteNodeIfNeeded(key)`: the trie afterwards, or `none` for the abort when
`mark` is still null after the loop. -/
def DeleteNodeIfNeeded (t : Trie Ty Val) (key : List Char) : Option (Trie Ty Val) :=
  match DeleteNodeIfNeeded.loop t.root_ key 0 (some []) none 0 with
  | none => none
  | some (none, _) => none
  | some (some mark, idx) =>
    match deref mark t.root_ with
    | none => none
    | some node => some ⟨store mark t.root_ (node.RemoveChildNode (key.getD idx (Char.ofNat 0)))⟩

/-- Method `Remove(key)`: the trie afterwards and the value returned; `none` is an abort. -/
def Remove (t : Trie Ty Val) (key : List Char) : Option (Trie Ty Val × Bool) :=
  if key.isEmpty then some (t, false)
  else
    match Remove.loop t.root_ key none [] with
    | none => some (t, false)
    | some (pre, cur) =>
      match deref cur t.root_ with
      | none => none
      | some node =>
        if !node.HasChildren && cur != [] then
          match t.DeleteNodeIfNeeded key with
          | none => none
          | some t1 => some (t1, true)
        else
          match pre with
          | some pre =>
            match deref pre t.root_ with
            | none => none
            | some p =>
              let p1 := p.RemoveChildNode (key.getLastD (Char.ofNat 0))
              let p2 := (p1.InsertChildNode (key.getLastD (Char.ofNat 0)) node).getD p1
              some (⟨store pre t.root_ p2⟩, true)
          | none => some (⟨node⟩, true)

/-- Method `GetValue<T>(key, &success)`: the value returned and `*success`. The
`dynamic_cast` to `TrieNodeWithValue<T>*` succeeds when the node found is a
`TrieNodeWithValue<S>` with `S = T`; on failure the value returned is `T()`. -/
def GetValue [DecidableEq Ty] [∀ T, Inhabited (Val T)] (t : Trie Ty Val) (T : Ty)
    (key : List Char) : Val T × Bool :=
  match SearchForKey key t.root_ with
  | none => (default, false)
  | some ptr =>
    match ptr.value_ with
    | none => (default, false)
    | some ⟨S, v⟩ => if h : S = T then (h ▸ v, true) else (default, false)

end Trie

/-! ## Vocabulary of the properties -/

section Vocabulary

variable {Ty : Type} {Val : Ty → Type}

/-- The node of key `k`: the node at the end of the path that `k` spells from the root;
`none` when some character of `k` has no node on that path. -/
def Trie.nodeOf (t : Trie Ty Val) (k : List Char) : Option (TrieNode Ty Val) :=
  deref k t.root_

/-- Key `k` is stored: its node exists and is terminal. -/
def Trie.Stores (t : Trie Ty Val) (k : List Char) : Bool :=
  match t.nodeOf k with
  | none => false
  | some n => n.IsEndNode

/-- What a lookup of `key` below `root` observes: `none` when `SearchForKey` returns
`nullptr`, otherwise the dynamic type and value of the node it returns. -/
def found (key : List Char) (root : TrieNode Ty Val) : Option (Option ((T : Ty) × Val T)) :=
  (Trie.SearchForKey key root).map TrieNode.value_

/-- The node that `InsertFromNode` hangs below `*current`: plain nodes for `ch` and the
characters of `rest` but the last, and a `TrieNodeWithValue<T>` for the last one. -/
def chain (T : Ty) (value : Val T) : Char → List Char → TrieNode Ty Val
  | ch, [] => TrieNodeWithValue.new ch T value
  | ch, ch1 :: rest => TrieNode.mk ch false [(ch1, chain T value ch1 rest)] none

/-- Below `n` there is nothing but the path `rest`: every node on it before the last is
neither terminal nor has more than one child, and the last has no children. -/
def IsChain : List Char → TrieNode Ty Val → Prop
  | [], n => n.HasChildren = false
  | c :: rest, n =>
    n.IsEndNode = false ∧ n.HasMultiChildren = false ∧
      ∃ m, n.GetChildNode c = some m ∧ IsChain rest m

/-- The two ways in which `Insert` changes the node `cur0` at which its loop stops, `ch`
being the key character read there and `rest` the characters after it: a new chain is hung
below `cur0`, or the child for `ch`, the last character, is promoted. `cur1` is the node
afterwards. -/
def InsertedAt {Ty : Type} {Val : Ty → Type} (T : Ty) (v : Val T) (ch : Char)
    (rest : List Char) (cur0 cur1 : TrieNode Ty Val) : Prop :=
  (cur0.GetChildNode ch = none ∧
      cur1 = TrieNode.mk cur0.key_char_ cur0.is_end_ ((ch, chain T v ch rest) :: cur0.children_)
        cur0.value_) ∨
    (rest = [] ∧ ∃ search, cur0.GetChildNode ch = some search ∧ search.IsEndNode = false ∧
      cur1 = (((cur0.setChild ch (TrieNodeWithValue.movedFrom search)).RemoveChildNode
          ch).InsertChildNode ch (TrieNodeWithValue.ofTrieNode search T v)).getD
        ((cur0.setChild ch (TrieNodeWithValue.movedFrom search)).RemoveChildNode ch))

/-- Every node of the tree under a node satisfies `P`. -/
inductive AllNodes (P : TrieNode Ty Val → Prop) : TrieNode Ty Val → Prop where
  | mk (n : TrieNode Ty Val) (here : P n)
      (below : ∀ e, e ∈ n.children_ → AllNodes P e.2) : AllNodes P n

/-- Every entry `(c, child)` of the children map of `n` has `child.key_char_ == c`. -/
def KeysMatch (n : TrieNode Ty Val) : Prop :=
  ∀ e, e ∈ n.children_ → e.2.key_char_ = e.1

/-- The children map of `n` has one entry for a key character at most. -/
def NodupKeys (n : TrieNode Ty Val) : Prop :=
  (n.children_.map Prod.fst).Nodup

/-- A property of single nodes that survives the changes `Insert` and `Remove` make to a
node: the replacement of a child by a node with the same key character, the replacement of
the entry for a character by a new entry, the removal of an entry, the promotion of the
node; and that the nodes of a new chain have. -/
structure Stable (P : TrieNode Ty Val → Prop) : Prop where
  onSetChild : ∀ (x : TrieNode Ty Val) (c : Char) (old y : TrieNode Ty Val), P x →
    x.GetChildNode c = some old → y.key_char_ = old.key_char_ → P (x.setChild c y)
  onRelink : ∀ (n x : TrieNode Ty Val) (c : Char), P n → x.key_char_ = c →
    P (TrieNode.mk n.key_char_ n.is_end_ ((c, x) :: n.children_.filter fun e => e.1 != c)
      n.value_)
  onRemove : ∀ (n : TrieNode Ty Val) (c : Char), P n → P (n.RemoveChildNode c)
  onChain : ∀ (T : Ty) (v : Val T) (ch : Char) (rest : List Char), P (chain T v ch rest)
  onPromote : ∀ (n : TrieNode Ty Val) (T : Ty) (v : Val T), P n →
    P (TrieNodeWithValue.ofTrieNode n T v)

/-- The tries that `Insert` and `Remove` calls which return produce from the empty trie. -/
inductive Reachable : Trie Ty Val → Prop where
  | new : Reachable Trie.new
  | Insert {t t1 : Trie Ty Val} {T : Ty} {key : List Char} {value : Val T} {b : Bool} :
      Reachable t → t.Insert T key value = some (t1, b) → Reachable t1
  | Remove {t t1 : Trie Ty Val} {key : List Char} {b : Bool} :
      Reachable t → t.Remove key = some (t1, b) → Reachable t1

end Vocabulary

/-! ## Concrete value types and tries -/

/-- The two value types the tests of the repository store: `int` and `std::string`. -/
inductive CppType where
  | int
  | string
  deriving DecidableEq

/-- The values of a `CppType`. -/
abbrev CppVal : CppType → Type
  | .int => Int
  | .string => String

/-- Value initialisation `T()`: `0` for `int`, the empty string for `std::string`. -/
instance instInhabitedCppVal : ∀ T, Inhabited (CppVal T)
  | .int => ⟨(0 : Int)⟩
  | .string => ⟨""⟩

/-- The trie after `Insert<int>("a", 5)` on the empty trie. -/
def trieA : Trie CppType CppVal :=
  ⟨TrieNode.mk (Char.ofNat 0) false
    [('a', TrieNode.mk 'a' true [] (some ⟨CppType.int, (5 : Int)⟩))] none⟩

/-- The trie after `Insert<int>("a", 5)` and `Insert<int>("aa", 6)` on the empty trie. -/
def trieA_AA : Trie CppType CppVal :=
  ⟨TrieNode.mk (Char.ofNat 0) false
    [('a', TrieNode.mk 'a' true
      [('a', TrieNode.mk 'a' true [] (some ⟨CppType.int, (6 : Int)⟩))]
      (some ⟨CppType.int, (5 : Int)⟩))] none⟩

/-- The trie after `Insert<int>("ab", 5)` on the empty trie. -/
def trieAB : Trie CppType CppVal :=
  ⟨TrieNode.mk (Char.ofNat 0) false
    [('a', TrieNode.mk 'a' false
      [('b', TrieNode.mk 'b' true [] (some ⟨CppType.int, (5 : Int)⟩))] none)] none⟩

/-- The trie after `Insert<int>("ab", 5)` and `Insert<int>("ac", 6)` on the empty trie. -/
def trieAB_AC : Trie CppType CppVal :=
  ⟨TrieNode.mk (Char.ofNat 0) false
    [('a', TrieNode.mk 'a' false
      [('c', TrieNode.mk 'c' true [] (some ⟨CppType.int, (6 : Int)⟩)),
        ('b', TrieNode.mk 'b' true [] (some ⟨CppType.int, (5 : Int)⟩))] none)] none⟩

/-- The trie after `Insert<int>("ab", 5)`, `Insert<int>("ac", 6)` and `Remove("ab")`. -/
def trieAC : Trie CppType CppVal :=
  ⟨TrieNode.mk (Char.ofNat 0) false
    [('a', TrieNode.mk 'a' false
      [('c', TrieNode.mk 'c' true [] (some ⟨CppType.int, (6 : Int)⟩))] none)] none⟩

/-- The trie after `Insert<std::string>("aa", "val")` on the empty trie. -/
def trieAA : Trie CppType CppVal :=
  ⟨TrieNode.mk (Char.ofNat 0) false
    [('a', TrieNode.mk 'a' false
      [('a', TrieNode.mk 'a' true [] (some ⟨CppType.string, "val"⟩))] none)] none⟩

/-- The node `TrieNode('a')` of the tests of the repository. -/
def nodeA : TrieNode CppType CppVal :=
  TrieNode.new 'a'

/-- The node `TrieNode('a')` after `InsertChildNode('b', std::make_unique<TrieNode>('b'))`. -/
def nodeA_B : TrieNode CppType CppVal :=
  TrieNode.mk 'a' false [('b', TrieNode.new 'b')] none

/-- The node `TrieNode('a')` after `InsertChildNode` of a node `'b'` and of a node `'c'`. -/
def nodeA_CB : TrieNode CppType CppVal :=
  TrieNode.mk 'a' false [('c', TrieNode.new 'c'), ('b', TrieNode.new 'b')] none

/-- The node `TrieNode('a')` with a child `'c'` only: `nodeA_CB` after
`RemoveChildNode('b')`. -/
def nodeA_C : TrieNode CppType CppVal :=
  TrieNode.mk 'a' false [('c', TrieNode.new 'c')] none

/-! ## Vocabulary of the invariants -/

section InvariantVocabulary

variable {Ty : Type} {Val : Ty → Type}

/-- The node `n` is not dead: when it has no children it is terminal. -/
def NoDead (n : TrieNode Ty Val) : Prop :=
  n.HasChildren = false → n.IsEndNode = true

/-- No child of `n` is dead. Every node but the root is the child of a node, so this
property of every node says that no node other than the root is dead. -/
def NoDeadBelow (n : TrieNode Ty Val) : Prop :=
  ∀ e, e ∈ n.children_ → NoDead e.2

/-- The flag `is_end_` of `n` is set exactly when the object is a `TrieNodeWithValue`. -/
def EndIffValue (n : TrieNode Ty Val) : Prop :=
  n.is_end_ = n.value_.isSome

end InvariantVocabulary

/-! ## The calls of `InsertChildNode` inside `Insert` -/

section TracedInsert

variable {Ty : Type} {Val : Ty → Type}

/-- Method `GetValue()` of `TrieNodeWithValue<T>`, on a node seen through a `TrieNode`
pointer: the field `value_` when the object is a `TrieNodeWithValue<T>`, `none` when it is
not one. -/
def TrieNodeWithValue.GetValue [DecidableEq Ty] (n : TrieNode Ty Val) (T : Ty) :
    Option (Val T) :=
  match n.value_ with
  | none => none
  | some ⟨S, v⟩ => if h : S = T then some (h ▸ v) else none

/-- `InsertFromNode` together with the log of its `InsertChildNode` calls: for every call,
in the order of the calls, whether the handle returned was non-null. -/
def Trie.InsertFromNode.traced (T : Ty) (value : Val T) :
    Char → List Char → TrieNode Ty Val → Option (TrieNode Ty Val) × List Bool
  | ch, [], current =>
    match current.InsertChildNode ch (TrieNodeWithValue.new ch T value) with
    | none => (some current, [false])
    | some current1 => (some current1, [true])
  | ch, ch1 :: rest, current =>
    match current.InsertChildNode ch (TrieNode.new ch) with
    | none => (none, [false])
    | some current1 =>
      match current1.GetChildNode ch with
      | none => (none, [true])
      | some next_node =>
        match Trie.InsertFromNode.traced T value ch1 rest next_node with
        | (none, log) => (none, true :: log)
        | (some next_node1, log) => (some (current1.setChild ch next_node1), true :: log)

/-- The loop of `Insert` together with the log of the `InsertChildNode` calls made in it
and in `InsertFromNode`. -/
def Trie.Insert.loopTraced (T : Ty) (value : Val T) (root_ : TrieNode Ty Val) :
    List Char → Handle → Option (TrieNode Ty Val × Bool) × List Bool
  | [], _ => (some (root_, false), [])
  | ch :: rest, current =>
    match deref current root_ with
    | none => (none, [])
    | some cur =>
      match cur.GetChildNode ch with
      | none =>
        match Trie.InsertFromNode.traced T value ch rest cur with
        | (none, log) => (none, log)
        | (some cur1, log) => (some (store current root_ cur1, true), log)
      | some search =>
        if rest.isEmpty && !search.IsEndNode then
          let new_node := TrieNodeWithValue.ofTrieNode search T value
          let cur1 := (cur.setChild ch (TrieNodeWithValue.movedFrom search)).RemoveChildNode ch
          let cur2 := (cur1.InsertChildNode ch new_node).getD cur1
          (some (store current root_ cur2, true), [(cur1.InsertChildNode ch new_node).isSome])
        else Trie.Insert.loopTraced T value root_ rest (current ++ [ch])

/-- Method `Insert<T>(key, value)` together with the log of the `InsertChildNode` calls it
makes. -/
def Trie.InsertTraced (t : Trie Ty Val) (T : Ty) (key : List Char) (value : Val T) :
    Option (Trie Ty Val × Bool) × List Bool :=
  if key.length = 0 then (some (t, false), [])
  else
    match Trie.SearchForKey key t.root_ with
    | some _ => (some (t, false), [])
    | none =>
      match Trie.Insert.loopTraced T value t.root_ key [] with
      | (none, log) => (none, log)
      | (some (root1, b), log) => (some (⟨root1⟩, b), log)

end TracedInsert

/-! ## Lemmas -/

section Lemmas

variable {Ty : Type} {Val : Ty → Type}

/-! ### The children map -/

theorem lookup_cons_self (c : Char) (m : TrieNode Ty Val) (l : List (Char × TrieNode Ty Val)) :
    ((c, m) :: l).lookup c = some m := by
  simp [List.lookup]

theorem lookup_cons_other {c d : Char} (h : d ≠ c) (m : TrieNode Ty Val)
    (l : List (Char × TrieNode Ty Val)) : ((c, m) :: l).lookup d = l.lookup d := by
  have h1 : (d == c) = false := by simpa using h
  simp [List.lookup, h1]

theorem lookup_filter_self (c : Char) (l : List (Char × TrieNode Ty Val)) :
    (l.filter fun e => e.1 != c).lookup c = none := by
  induction l with
  | nil => rfl
  | cons e l ih =>
    obtain ⟨a, m⟩ := e
    by_cases h : a = c
    · subst h
      rw [List.filter_cons_of_neg (by simp)]
      exact ih
    · rw [List.filter_cons_of_pos (by simpa using h), lookup_cons_other (Ne.symm h), ih]

theorem lookup_filter_other {c d : Char} (h : d ≠ c) (l : List (Char × TrieNode Ty Val)) :
    (l.filter fun e => e.1 != c).lookup d = l.lookup d := by
  induction l with
  | nil => rfl
  | cons e l ih =>
    obtain ⟨a, m⟩ := e
    by_cases h1 : a = c
    · subst h1
      rw [List.filter_cons_of_neg (by simp), lookup_cons_other h, ih]
    · rw [List.filter_cons_of_pos (by simpa using h1)]
      by_cases h3 : d = a
      · subst h3
        rw [lookup_cons_self, lookup_cons_self]
      · rw [lookup_cons_other h3, lookup_cons_other h3, ih]

theorem lookup_map_self (c : Char) (m : TrieNode Ty Val) (l : List (Char × TrieNode Ty Val)) :
    (l.map fun e => if e.1 == c then (e.1, m) else e).lookup c =
      (l.lookup c).map fun _ => m := by
  induction l with
  | nil => rfl
  | cons e l ih =>
    obtain ⟨a, x⟩ := e
    by_cases h : a = c
    · subst h
      rw [List.map_cons, lookup_cons_self]
      simp [lookup_cons_self]
    · rw [List.map_cons, lookup_cons_other (Ne.symm h), if_neg (by simpa using h),
        lookup_cons_other (Ne.symm h), ih]

theorem lookup_map_other {c d : Char} (h : d ≠ c) (m : TrieNode Ty Val)
    (l : List (Char × TrieNode Ty Val)) :
    (l.map fun e => if e.1 == c then (e.1, m) else e).lookup d = l.lookup d := by
  induction l with
  | nil => rfl
  | cons e l ih =>
    obtain ⟨a, x⟩ := e
    by_cases h1 : a = c
    · subst h1
      rw [List.map_cons, if_pos (by simp), lookup_cons_other h, lookup_cons_other h, ih]
    · rw [List.map_cons, if_neg (by simpa using h1)]
      by_cases h3 : d = a
      · subst h3
        rw [lookup_cons_self, lookup_cons_self]
      · rw [lookup_cons_other h3, lookup_cons_other h3, ih]

theorem mem_of_lookup {c : Char} {m : TrieNode Ty Val} {l : List (Char × TrieNode Ty Val)}
    (h : l.lookup c = some m) : (c, m) ∈ l := by
  induction l with
  | nil => simp at h
  | cons e l ih =>
    obtain ⟨a, x⟩ := e
    by_cases h1 : c = a
    · subst h1
      rw [lookup_cons_self] at h
      cases h
      exact List.mem_cons_self _ _
    · rw [lookup_cons_other h1] at h
      exact List.mem_cons_of_mem _ (ih h)

theorem filter_of_lookup_none {c : Char} {l : List (Char × TrieNode Ty Val)}
    (h : l.lookup c = none) : (l.filter fun e => e.1 != c) = l := by
  induction l with
  | nil => rfl
  | cons e l ih =>
    obtain ⟨a, x⟩ := e
    by_cases h1 : c = a
    · subst h1
      rw [lookup_cons_self] at h
      cases h
    · rw [lookup_cons_other h1] at h
      rw [List.filter_cons_of_pos (by simpa using Ne.symm h1), ih h]

theorem map_of_lookup_none {c : Char} (m : TrieNode Ty Val) {l : List (Char × TrieNode Ty Val)}
    (h : l.lookup c = none) : (l.map fun e => if e.1 == c then (e.1, m) else e) = l := by
  induction l with
  | nil => rfl
  | cons e l ih =>
    obtain ⟨a, x⟩ := e
    by_cases h1 : c = a
    · subst h1
      rw [lookup_cons_self] at h
      cases h
    · rw [lookup_cons_other h1] at h
      rw [List.map_cons, if_neg (by simpa using Ne.symm h1), ih h]

theorem filter_map_set (c : Char) (m : TrieNode Ty Val) (l : List (Char × TrieNode Ty Val)) :
    (l.map fun e => if e.1 == c then (e.1, m) else e).filter (fun e => e.1 != c) =
      l.filter fun e => e.1 != c := by
  induction l with
  | nil => rfl
  | cons x l ih =>
    by_cases hx : x.1 = c
    · rw [List.map_cons, if_pos (by simpa using hx), List.filter_cons_of_neg (by simpa using hx),
        List.filter_cons_of_neg (by simpa using hx), ih]
    · rw [List.map_cons, if_neg (by simpa using hx), List.filter_cons_of_pos (by simpa using hx),
        List.filter_cons_of_pos (by simpa using hx), ih]

end Lemmas

section NodeLemmas

variable {Ty : Type} {Val : Ty → Type}

/-! ### Node operations -/

@[simp]
theorem key_char_mk (k : Char) (e : Bool) (cs : List (Char × TrieNode Ty Val))
    (v : Option ((T : Ty) × Val T)) : (TrieNode.mk k e cs v).key_char_ = k := rfl

@[simp]
theorem is_end_mk (k : Char) (e : Bool) (cs : List (Char × TrieNode Ty Val))
    (v : Option ((T : Ty) × Val T)) : (TrieNode.mk k e cs v).is_end_ = e := rfl

@[simp]
theorem children_mk (k : Char) (e : Bool) (cs : List (Char × TrieNode Ty Val))
    (v : Option ((T : Ty) × Val T)) : (TrieNode.mk k e cs v).children_ = cs := rfl

@[simp]
theorem value_mk (k : Char) (e : Bool) (cs : List (Char × TrieNode Ty Val))
    (v : Option ((T : Ty) × Val T)) : (TrieNode.mk k e cs v).value_ = v := rfl

theorem setChild_mk_cons (k : Char) (e : Bool) (c : Char) (x : TrieNode Ty Val)
    (cs : List (Char × TrieNode Ty Val)) (v : Option ((T : Ty) × Val T)) (m : TrieNode Ty Val) :
    (TrieNode.mk k e ((c, x) :: cs) v).setChild c m =
      TrieNode.mk k e ((c, m) :: cs.map fun e => if e.1 == c then (e.1, m) else e) v := by
  unfold TrieNode.setChild
  simp only [key_char_mk, is_end_mk, children_mk, value_mk, List.map_cons, beq_self_eq_true,
    if_true]

theorem HasChild_eq (n : TrieNode Ty Val) (c : Char) :
    n.HasChild c = (n.GetChildNode c).isSome := rfl

theorem GetChildNode_setChild_self (n : TrieNode Ty Val) (c : Char) (m : TrieNode Ty Val) :
    (n.setChild c m).GetChildNode c = (n.GetChildNode c).map fun _ => m := by
  cases n
  exact lookup_map_self c m _

theorem GetChildNode_setChild_other (n : TrieNode Ty Val) {c d : Char} (h : d ≠ c)
    (m : TrieNode Ty Val) : (n.setChild c m).GetChildNode d = n.GetChildNode d := by
  cases n
  exact lookup_map_other h m _

theorem RemoveChildNode_children (n : TrieNode Ty Val) (c : Char) :
    (n.RemoveChildNode c).children_ = n.children_.filter fun e => e.1 != c := by
  cases n with
  | mk k e cs v =>
    unfold TrieNode.RemoveChildNode
    split
    · rename_i h
      have h1 : cs.lookup c = none := by simpa [TrieNode.children_] using h
      exact (filter_of_lookup_none h1).symm
    · rfl

theorem GetChildNode_RemoveChildNode_self (n : TrieNode Ty Val) (c : Char) :
    (n.RemoveChildNode c).GetChildNode c = none := by
  unfold TrieNode.GetChildNode
  rw [RemoveChildNode_children]
  exact lookup_filter_self c _

theorem GetChildNode_RemoveChildNode_other (n : TrieNode Ty Val) {c d : Char} (h : d ≠ c) :
    (n.RemoveChildNode c).GetChildNode d = n.GetChildNode d := by
  unfold TrieNode.GetChildNode
  rw [RemoveChildNode_children]
  exact lookup_filter_other h _

@[simp]
theorem RemoveChildNode_key_char (n : TrieNode Ty Val) (c : Char) :
    (n.RemoveChildNode c).key_char_ = n.key_char_ := by
  cases n
  unfold TrieNode.RemoveChildNode
  split <;> rfl

@[simp]
theorem RemoveChildNode_is_end (n : TrieNode Ty Val) (c : Char) :
    (n.RemoveChildNode c).is_end_ = n.is_end_ := by
  cases n
  unfold TrieNode.RemoveChildNode
  split <;> rfl

@[simp]
theorem RemoveChildNode_value (n : TrieNode Ty Val) (c : Char) :
    (n.RemoveChildNode c).value_ = n.value_ := by
  cases n
  unfold TrieNode.RemoveChildNode
  split <;> rfl

@[simp]
theorem setChild_key_char (n : TrieNode Ty Val) (c : Char) (m : TrieNode Ty Val) :
    (n.setChild c m).key_char_ = n.key_char_ := rfl

@[simp]
theorem setChild_is_end (n : TrieNode Ty Val) (c : Char) (m : TrieNode Ty Val) :
    (n.setChild c m).is_end_ = n.is_end_ := rfl

@[simp]
theorem setChild_value (n : TrieNode Ty Val) (c : Char) (m : TrieNode Ty Val) :
    (n.setChild c m).value_ = n.value_ := rfl

theorem setChild_children (n : TrieNode Ty Val) (c : Char) (m : TrieNode Ty Val) :
    (n.setChild c m).children_ = n.children_.map fun e => if e.1 == c then (e.1, m) else e :=
  rfl

theorem RemoveChildNode_setChild (n : TrieNode Ty Val) (c : Char) (m : TrieNode Ty Val) :
    (n.setChild c m).RemoveChildNode c = n.RemoveChildNode c := by
  cases n with
  | mk k e cs v =>
    cases hl : cs.lookup c with
    | none =>
      have : (TrieNode.mk k e cs v).setChild c m = TrieNode.mk k e cs v := by
        simp only [TrieNode.setChild, TrieNode.children_, TrieNode.key_char_, TrieNode.is_end_,
          TrieNode.value_, map_of_lookup_none m hl]
      rw [this]
    | some x =>
      have h1 : ((cs.map fun e => if e.1 == c then (e.1, m) else e).lookup c).isNone = false := by
        rw [lookup_map_self, hl]
        rfl
      simp only [TrieNode.setChild, TrieNode.RemoveChildNode, TrieNode.children_,
        TrieNode.key_char_, TrieNode.is_end_, TrieNode.value_, h1, hl, filter_map_set,
        Option.isNone_some, Bool.false_eq_true, if_false]

theorem InsertChildNode_eq (n : TrieNode Ty Val) (c : Char) (child : TrieNode Ty Val)
    (h : n.GetChildNode c = none) (hk : child.key_char_ = c) :
    n.InsertChildNode c child =
      some (TrieNode.mk n.key_char_ n.is_end_ ((c, child) :: n.children_) n.value_) := by
  unfold TrieNode.InsertChildNode
  rw [HasChild_eq, h, hk]
  simp

theorem InsertChildNode_some {n n1 : TrieNode Ty Val} {c : Char} {child : TrieNode Ty Val}
    (h : n.InsertChildNode c child = some n1) :
    n.GetChildNode c = none ∧ child.key_char_ = c ∧
      n1 = TrieNode.mk n.key_char_ n.is_end_ ((c, child) :: n.children_) n.value_ := by
  unfold TrieNode.InsertChildNode at h
  split at h
  · cases h
  · rename_i hc
    rw [HasChild_eq] at hc
    cases hg : n.GetChildNode c with
    | some x => simp [hg] at hc
    | none =>
      cases h
      refine ⟨rfl, ?_, rfl⟩
      by_contra hne
      exact hc (by simpa [hg] using fun h2 : c = child.key_char_ => hne h2.symm)

theorem mem_children_of_GetChildNode {n m : TrieNode Ty Val} {c : Char}
    (h : n.GetChildNode c = some m) : (c, m) ∈ n.children_ :=
  mem_of_lookup h

/-! ### Handles -/

theorem deref_append (p s : Handle) (root : TrieNode Ty Val) :
    deref (p ++ s) root = (deref p root).bind (deref s) := by
  induction p generalizing root with
  | nil => rfl
  | cons c p ih =>
    simp only [List.cons_append, deref]
    cases root.GetChildNode c with
    | none => rfl
    | some m => exact ih m

theorem deref_store_append {p : Handle} {root n : TrieNode Ty Val} (h : deref p root = some n)
    (n1 : TrieNode Ty Val) (s : Handle) : deref (p ++ s) (store p root n1) = deref s n1 := by
  induction p generalizing root with
  | nil => rfl
  | cons c p ih =>
    simp only [deref] at h
    cases hm : root.GetChildNode c with
    | none => simp [hm] at h
    | some m =>
      rw [hm] at h
      simp only [List.cons_append, deref, store, hm, GetChildNode_setChild_self, Option.map_some']
      exact ih h

theorem deref_store {p : Handle} {root n : TrieNode Ty Val} (h : deref p root = some n)
    (n1 : TrieNode Ty Val) : deref p (store p root n1) = some n1 := by
  have := deref_store_append h n1 []
  simpa using this

theorem store_cons_is_end (c : Char) (p : Handle) (root n1 : TrieNode Ty Val) :
    (store (c :: p) root n1).is_end_ = root.is_end_ := by
  simp only [store]
  cases root.GetChildNode c <;> rfl

theorem store_cons_value (c : Char) (p : Handle) (root n1 : TrieNode Ty Val) :
    (store (c :: p) root n1).value_ = root.value_ := by
  simp only [store]
  cases root.GetChildNode c <;> rfl

theorem store_cons_key_char (c : Char) (p : Handle) (root n1 : TrieNode Ty Val) :
    (store (c :: p) root n1).key_char_ = root.key_char_ := by
  simp only [store]
  cases root.GetChildNode c <;> rfl

/-! ### Lookups -/

theorem SearchForKey_eq_deref (k : List Char) (root : TrieNode Ty Val) :
    Trie.SearchForKey k root =
      (deref k root).bind fun n => if n.IsEndNode then some n else none := by
  induction k generalizing root with
  | nil => rfl
  | cons c k ih =>
    simp only [Trie.SearchForKey, deref, TrieNode.HasChild, TrieNode.GetChildNode]
    cases root.children_.lookup c with
    | none => rfl
    | some m => simpa using ih m

theorem found_nil (n : TrieNode Ty Val) :
    found [] n = if n.IsEndNode then some n.value_ else none := by
  unfold found Trie.SearchForKey
  split <;> rfl

theorem found_cons (c : Char) (k : List Char) (n : TrieNode Ty Val) :
    found (c :: k) n = (n.GetChildNode c).bind (found k) := by
  unfold found
  simp only [Trie.SearchForKey, TrieNode.HasChild, TrieNode.GetChildNode]
  cases n.children_.lookup c with
  | none => rfl
  | some m => rfl

theorem found_eq_deref (k : List Char) (root : TrieNode Ty Val) :
    found k root = (deref k root).bind (found []) := by
  induction k generalizing root with
  | nil => rfl
  | cons c k ih =>
    rw [found_cons]
    simp only [deref]
    cases root.GetChildNode c with
    | none => rfl
    | some m => exact ih m

theorem found_store_append {p : Handle} {root n : TrieNode Ty Val} (h : deref p root = some n)
    (n1 : TrieNode Ty Val) (s : List Char) : found (p ++ s) (store p root n1) = found s n1 := by
  rw [found_eq_deref, deref_store_append h, ← found_eq_deref]

/-- A change of the node at `p` that is invisible to lookups other than `s` below it is
invisible to lookups other than `p ++ s` from the root. -/
theorem found_store {p : Handle} {root n n1 : TrieNode Ty Val} {s : List Char}
    (h : deref p root = some n) (hs : ∀ k, k ≠ s → found k n1 = found k n)
    (k : List Char) (hk : k ≠ p ++ s) : found k (store p root n1) = found k root := by
  induction p generalizing root k with
  | nil =>
    cases h
    exact hs k hk
  | cons c p ih =>
    simp only [deref] at h
    cases hm : root.GetChildNode c with
    | none => simp [hm] at h
    | some m =>
      rw [hm] at h
      simp only [store, hm]
      cases k with
      | nil =>
        rw [found_nil, found_nil]
        rfl
      | cons d k =>
        rw [found_cons, found_cons]
        by_cases hd : d = c
        · subst hd
          rw [GetChildNode_setChild_self, hm]
          exact ih h k (fun hk1 => hk (by rw [hk1]; rfl))
        · rw [GetChildNode_setChild_other _ hd]

/-- A change of the node at `p` that no lookup below it sees is seen by no lookup at all. -/
theorem found_store_all {p : Handle} {root n n1 : TrieNode Ty Val}
    (h : deref p root = some n) (hs : ∀ k, found k n1 = found k n)
    (k : List Char) : found k (store p root n1) = found k root := by
  induction p generalizing root k with
  | nil =>
    cases h
    exact hs k
  | cons c p ih =>
    simp only [deref] at h
    cases hm : root.GetChildNode c with
    | none => simp [hm] at h
    | some m =>
      rw [hm] at h
      simp only [store, hm]
      cases k with
      | nil =>
        rw [found_nil, found_nil]
        rfl
      | cons d k =>
        rw [found_cons, found_cons]
        by_cases hd : d = c
        · subst hd
          rw [GetChildNode_setChild_self, hm]
          exact ih h k
        · rw [GetChildNode_setChild_other _ hd]

theorem GetValue_eq_of_found [DecidableEq Ty] [∀ T, Inhabited (Val T)] {t t1 : Trie Ty Val}
    {k : List Char} (h : found k t1.root_ = found k t.root_) (T : Ty) :
    t1.GetValue T k = t.GetValue T k := by
  unfold found at h
  unfold Trie.GetValue
  cases h1 : Trie.SearchForKey k t1.root_ with
  | none =>
    cases h2 : Trie.SearchForKey k t.root_ with
    | none => rfl
    | some b => simp [h1, h2] at h
  | some a =>
    cases h2 : Trie.SearchForKey k t.root_ with
    | none => simp [h1, h2] at h
    | some b =>
      simp only [h1, h2, Option.map_some', Option.some.injEq] at h
      simp only [h]

theorem GetValue_of_found [DecidableEq Ty] [∀ T, Inhabited (Val T)] {t : Trie Ty Val}
    {k : List Char} {T : Ty} {v : Val T} (h : found k t.root_ = some (some ⟨T, v⟩)) :
    t.GetValue T k = (v, true) := by
  unfold found at h
  unfold Trie.GetValue
  cases h1 : Trie.SearchForKey k t.root_ with
  | none => simp [h1] at h
  | some a =>
    simp only [h1, Option.map_some', Option.some.injEq] at h
    simp only [h]
    simp

theorem GetValue_of_found_none [DecidableEq Ty] [∀ T, Inhabited (Val T)] {t : Trie Ty Val}
    {k : List Char} (h : found k t.root_ = none) (T : Ty) :
    t.GetValue T k = (default, false) := by
  unfold found at h
  unfold Trie.GetValue
  cases h1 : Trie.SearchForKey k t.root_ with
  | none => rfl
  | some a => simp [h1] at h

end NodeLemmas

section InsertLemmas

variable {Ty : Type} {Val : Ty → Type}

/-! ### `InsertFromNode` and the chain it builds -/

theorem chain_key_char (T : Ty) (v : Val T) (ch : Char) (rest : List Char) :
    (chain T v ch rest : TrieNode Ty Val).key_char_ = ch := by
  cases rest <;> rfl

theorem InsertFromNode_eq (T : Ty) (v : Val T) (ch : Char) (rest : List Char)
    (cur : TrieNode Ty Val) (h : cur.GetChildNode ch = none) :
    Trie.InsertFromNode T v ch rest cur =
      some (TrieNode.mk cur.key_char_ cur.is_end_ ((ch, chain T v ch rest) :: cur.children_)
        cur.value_) := by
  induction rest generalizing ch cur with
  | nil =>
    have hi := InsertChildNode_eq cur ch (TrieNodeWithValue.new ch T v) h rfl
    simp only [Trie.InsertFromNode, hi]
    rfl
  | cons c1 rest ih =>
    have hi := InsertChildNode_eq cur ch (TrieNode.new ch : TrieNode Ty Val) h rfl
    have hg : (TrieNode.mk cur.key_char_ cur.is_end_
        ((ch, (TrieNode.new ch : TrieNode Ty Val)) :: cur.children_) cur.value_).GetChildNode ch
        = some (TrieNode.new ch) := lookup_cons_self _ _ _
    have hn := ih c1 (TrieNode.new ch : TrieNode Ty Val) rfl
    simp only [Trie.InsertFromNode, hi, hg, hn]
    have e1 : (TrieNode.mk (TrieNode.new ch : TrieNode Ty Val).key_char_
        (TrieNode.new ch : TrieNode Ty Val).is_end_
        ((c1, chain T v c1 rest) :: (TrieNode.new ch : TrieNode Ty Val).children_)
        (TrieNode.new ch : TrieNode Ty Val).value_) = chain T v ch (c1 :: rest) := rfl
    rw [e1, setChild_mk_cons, map_of_lookup_none _ h]

theorem found_chain (T : Ty) (v : Val T) (ch : Char) (rest k : List Char) :
    found k (chain T v ch rest : TrieNode Ty Val) =
      if k = rest then some (some ⟨T, v⟩) else none := by
  induction rest generalizing ch k with
  | nil =>
    cases k with
    | nil => rfl
    | cons d k => rfl
  | cons c1 rest ih =>
    cases k with
    | nil => rfl
    | cons d k =>
      rw [found_cons]
      by_cases hd : d = c1
      · subst hd
        have : (chain T v ch (d :: rest) : TrieNode Ty Val).GetChildNode d
            = some (chain T v d rest) := lookup_cons_self _ _ _
        rw [this, Option.some_bind, ih]
        by_cases hk : k = rest
        · simp [hk]
        · simp [hk]
      · have : (chain T v ch (c1 :: rest) : TrieNode Ty Val).GetChildNode d = none := by
          show List.lookup d [(c1, chain T v c1 rest)] = none
          rw [lookup_cons_other hd]
          rfl
        rw [this]
        simp [hd]

theorem allNodes_chain (P : TrieNode Ty Val → Prop) (T : Ty) (v : Val T)
    (hP : ∀ ch rest, P (chain T v ch rest)) (ch : Char) (rest : List Char) :
    AllNodes P (chain T v ch rest) := by
  induction rest generalizing ch with
  | nil =>
    refine AllNodes.mk _ (hP ch []) ?_
    intro e he
    cases he
  | cons c1 rest ih =>
    refine AllNodes.mk _ (hP ch (c1 :: rest)) ?_
    intro e he
    have : e = (c1, chain T v c1 rest) := by
      simpa [chain, TrieNode.children_] using he
    subst this
    exact ih c1

/-- The node `cur0` with a promoted child: what the second exit of the loop of `Insert`
leaves in `*current`. -/
theorem promote_eq (T : Ty) (v : Val T) {ch : Char} (cur0 : TrieNode Ty Val)
    {search : TrieNode Ty Val} (hk : search.key_char_ = ch) :
    (((cur0.setChild ch (TrieNodeWithValue.movedFrom search)).RemoveChildNode ch).InsertChildNode
        ch (TrieNodeWithValue.ofTrieNode search T v)).getD
        ((cur0.setChild ch (TrieNodeWithValue.movedFrom search)).RemoveChildNode ch) =
      TrieNode.mk cur0.key_char_ cur0.is_end_
        ((ch, TrieNodeWithValue.ofTrieNode search T v) ::
          cur0.children_.filter fun e => e.1 != ch) cur0.value_ := by
  rw [RemoveChildNode_setChild]
  have h1 : (cur0.RemoveChildNode ch).GetChildNode ch = none :=
    GetChildNode_RemoveChildNode_self _ _
  rw [InsertChildNode_eq _ _ _ h1 (show (TrieNodeWithValue.ofTrieNode search T v).key_char_ = ch
    from hk)]
  simp only [Option.getD_some, RemoveChildNode_key_char, RemoveChildNode_is_end,
    RemoveChildNode_value, RemoveChildNode_children]

end InsertLemmas

section InsertSpec

variable {Ty : Type} {Val : Ty → Type}

/-! ### The loop of `Insert` -/

theorem Insert_loop_spec (T : Ty) (v : Val T) (root : TrieNode Ty Val) (rest : List Char)
    (current : Handle) (cur : TrieNode Ty Val) (hne : rest ≠ [])
    (hc : deref current root = some cur) (hs : Trie.SearchForKey rest cur = none) :
    ∃ p ch rest1 cur0 cur1, rest = p ++ ch :: rest1 ∧ deref (current ++ p) root = some cur0 ∧
      InsertedAt T v ch rest1 cur0 cur1 ∧
      Trie.Insert.loop T v root rest current = some (store (current ++ p) root cur1, true) := by
  induction rest generalizing current cur with
  | nil => exact absurd rfl hne
  | cons ch rest ih =>
    cases hg : cur.GetChildNode ch with
    | none =>
      refine ⟨[], ch, rest, cur, _, rfl, by simpa using hc, Or.inl ⟨hg, rfl⟩, ?_⟩
      simp only [Trie.Insert.loop, hc, hg, InsertFromNode_eq T v ch rest cur hg,
        List.append_nil]
    | some search =>
      by_cases hx : (rest.isEmpty && !search.IsEndNode) = true
      · have hx1 := hx
        rw [Bool.and_eq_true] at hx1
        have hr : rest = [] := List.isEmpty_iff.1 hx1.1
        have he : search.IsEndNode = false := by simpa using hx1.2
        refine ⟨[], ch, rest, cur, _, rfl, by simpa using hc,
          Or.inr ⟨hr, search, hg, he, rfl⟩, ?_⟩
        simp only [Trie.Insert.loop, hc, hg, hx, if_true, List.append_nil]
      · have hs1 : Trie.SearchForKey rest search = none := by
          have := hs
          simp only [Trie.SearchForKey, HasChild_eq, hg, Option.isSome_some, if_true] at this
          exact this
        have hne1 : rest ≠ [] := by
          intro hr
          subst hr
          cases he : search.IsEndNode with
          | false => exact hx (by simp [he])
          | true => simp [Trie.SearchForKey, he] at hs1
        have hc1 : deref (current ++ [ch]) root = some search := by
          rw [deref_append, hc]
          simp [deref, hg]
        obtain ⟨p, c, rest1, cur0, cur1, hsplit, hd, hstep, hloop⟩ :=
          ih (current ++ [ch]) search hne1 hc1 hs1
        refine ⟨ch :: p, c, rest1, cur0, cur1, by rw [hsplit]; rfl, ?_, hstep, ?_⟩
        · simpa using hd
        · simp only [Trie.Insert.loop, hc, hg, hx]
          simpa using hloop

/-- What `Insert` does: it leaves the trie alone and returns false on an empty key and on
a key that `SearchForKey` finds; otherwise it changes one node and returns true. -/
theorem Insert_spec (t : Trie Ty Val) (T : Ty) (key : List Char) (v : Val T) :
    ((key = [] ∨ ∃ n, Trie.SearchForKey key t.root_ = some n) ∧
        t.Insert T key v = some (t, false)) ∨
      (key ≠ [] ∧ Trie.SearchForKey key t.root_ = none ∧
        ∃ p ch rest cur0 cur1, key = p ++ ch :: rest ∧ deref p t.root_ = some cur0 ∧
          InsertedAt T v ch rest cur0 cur1 ∧
          t.Insert T key v = some (⟨store p t.root_ cur1⟩, true)) := by
  by_cases hk : key = []
  · left
    subst hk
    exact ⟨Or.inl rfl, rfl⟩
  · have hl : ¬ key.length = 0 := fun h => hk (List.length_eq_zero.1 h)
    cases hs : Trie.SearchForKey key t.root_ with
    | some n =>
      left
      refine ⟨Or.inr ⟨n, rfl⟩, ?_⟩
      simp only [Trie.Insert, hl, if_false, hs]
    | none =>
      right
      obtain ⟨p, ch, rest, cur0, cur1, hsplit, hd, hstep, hloop⟩ :=
        Insert_loop_spec T v t.root_ key [] t.root_ hk rfl hs
      refine ⟨hk, rfl, p, ch, rest, cur0, cur1, hsplit, by simpa using hd, hstep, ?_⟩
      simp only [Trie.Insert, hl, if_false, hs, hloop]
      simp

/-! ### What `Insert` changes at the node where it stops -/

theorem InsertedAt_fields {T : Ty} {v : Val T} {ch : Char} {rest : List Char}
    {cur0 cur1 : TrieNode Ty Val} (h : InsertedAt T v ch rest cur0 cur1) :
    cur1.key_char_ = cur0.key_char_ ∧ cur1.is_end_ = cur0.is_end_ ∧
      cur1.value_ = cur0.value_ := by
  rcases h with ⟨_, h1⟩ | ⟨_, search, _, _, h1⟩
  · subst h1
    exact ⟨rfl, rfl, rfl⟩
  · rw [RemoveChildNode_setChild] at h1
    subst h1
    cases hi : (cur0.RemoveChildNode ch).InsertChildNode ch
        (TrieNodeWithValue.ofTrieNode search T v) with
    | none => simp
    | some x =>
      obtain ⟨_, _, hx⟩ := InsertChildNode_some hi
      subst hx
      simp

/-- With matching child keys, the node afterwards has a new entry for `ch` in front of the
other entries. -/
theorem InsertedAt_eq {T : Ty} {v : Val T} {ch : Char} {rest : List Char}
    {cur0 cur1 : TrieNode Ty Val} (h : InsertedAt T v ch rest cur0 cur1)
    (hm : KeysMatch cur0) :
    ∃ x, cur1 = TrieNode.mk cur0.key_char_ cur0.is_end_
        ((ch, x) :: cur0.children_.filter fun e => e.1 != ch) cur0.value_ ∧
      x.key_char_ = ch ∧ found rest x = some (some ⟨T, v⟩) ∧
      (∀ k, k ≠ rest → found k x = (cur0.GetChildNode ch).bind (found k)) ∧
      (x = chain T v ch rest ∨
        ∃ search, cur0.GetChildNode ch = some search ∧ search.IsEndNode = false ∧
          x = TrieNodeWithValue.ofTrieNode search T v) := by
  rcases h with ⟨h0, h1⟩ | ⟨hr, search, hg, he, h1⟩
  · refine ⟨chain T v ch rest, ?_, chain_key_char T v ch rest, ?_, ?_, Or.inl rfl⟩
    · rw [h1, filter_of_lookup_none h0]
    · rw [found_chain, if_pos rfl]
    · intro k hk
      rw [found_chain, if_neg hk, h0]
      rfl
  · have hkc : search.key_char_ = ch := hm _ (mem_children_of_GetChildNode hg)
    refine ⟨TrieNodeWithValue.ofTrieNode search T v, ?_, hkc, ?_, ?_, Or.inr ⟨search, hg, he, rfl⟩⟩
    · rw [h1, promote_eq T v cur0 hkc]
    · subst hr
      rfl
    · intro k hk
      subst hr
      rw [hg, Option.some_bind]
      cases k with
      | nil => exact absurd rfl hk
      | cons d k =>
        rw [found_cons, found_cons]
        rfl

theorem found_InsertedAt {T : Ty} {v : Val T} {ch : Char} {rest : List Char}
    {cur0 cur1 : TrieNode Ty Val} (h : InsertedAt T v ch rest cur0 cur1)
    (hm : KeysMatch cur0) :
    found (ch :: rest) cur1 = some (some ⟨T, v⟩) ∧
      ∀ k, k ≠ ch :: rest → found k cur1 = found k cur0 := by
  obtain ⟨x, hx, _, hf, hother, _⟩ := InsertedAt_eq h hm
  subst hx
  refine ⟨?_, ?_⟩
  · rw [found_cons]
    show (List.lookup ch ((ch, x) :: _)).bind _ = _
    rw [lookup_cons_self]
    exact hf
  · intro k hk
    cases k with
    | nil =>
      rw [found_nil, found_nil]
      rfl
    | cons d k =>
      rw [found_cons, found_cons]
      by_cases hd : d = ch
      · subst hd
        show (List.lookup d ((d, x) :: _)).bind _ = _
        rw [lookup_cons_self]
        exact hother k (fun hk1 => hk (by rw [hk1]))
      · show (List.lookup d ((ch, x) :: _)).bind _ = (List.lookup d _).bind _
        rw [lookup_cons_other hd, lookup_filter_other hd]

end InsertSpec

section RemoveLemmas

variable {Ty : Type} {Val : Ty → Type}

/-! ### The loop of `Remove` -/

theorem Remove_loop_spec (root : TrieNode Ty Val) (rest : List Char) (pre : Option Handle)
    (cur : Handle) (n : TrieNode Ty Val) (hc : deref cur root = some n) :
    Trie.Remove.loop root rest pre cur =
      match deref rest n with
      | none => none
      | some _ => some (if rest = [] then pre else some (cur ++ rest.dropLast), cur ++ rest) := by
  induction rest generalizing pre cur n with
  | nil => simp [Trie.Remove.loop, deref]
  | cons ch rest ih =>
    simp only [Trie.Remove.loop, hc, Option.some_bind, deref]
    cases hg : n.GetChildNode ch with
    | none => rfl
    | some m =>
      have hc1 : deref (cur ++ [ch]) root = some m := by
        rw [deref_append, hc]
        simp [deref, hg]
      simp only [ih (some cur) (cur ++ [ch]) m hc1]
      cases deref rest m with
      | none => rfl
      | some x =>
        cases rest with
        | nil => simp
        | cons d rest => simp

/-! ### Chains -/

theorem lookup_other_of_length_le_one {l : List (Char × TrieNode Ty Val)} {c d : Char}
    {m : TrieNode Ty Val} (hl : l.length ≤ 1) (hc : l.lookup c = some m) (hd : d ≠ c) :
    l.lookup d = none := by
  cases l with
  | nil => rfl
  | cons e l =>
    cases l with
    | nil =>
      obtain ⟨a, x⟩ := e
      by_cases ha : c = a
      · subst ha
        rw [lookup_cons_other hd]
        rfl
      · rw [lookup_cons_other ha] at hc
        cases hc
    | cons e1 l => simp at hl

theorem GetChildNode_of_not_HasChildren {n : TrieNode Ty Val} (h : n.HasChildren = false)
    (c : Char) : n.GetChildNode c = none := by
  unfold TrieNode.HasChildren at h
  unfold TrieNode.GetChildNode
  cases hcs : n.children_ with
  | nil => rfl
  | cons e l => simp [hcs] at h

/-- A lookup into a chain finds nothing but the key the chain spells. -/
theorem found_of_IsChain {s : List Char} {b : TrieNode Ty Val} (h : IsChain s b)
    (k : List Char) (hk : k ≠ s) : found k b = none := by
  induction s generalizing b k with
  | nil =>
    cases k with
    | nil => exact absurd rfl hk
    | cons d k =>
      rw [found_cons, GetChildNode_of_not_HasChildren h]
      rfl
  | cons c s ih =>
    obtain ⟨he, hmul, m, hg, hm⟩ := h
    cases k with
    | nil =>
      rw [found_nil, he]
      rfl
    | cons d k =>
      rw [found_cons]
      by_cases hd : d = c
      · subst hd
        rw [hg]
        exact ih hm k (fun hk1 => hk (by rw [hk1]))
      · have hl : b.children_.length ≤ 1 := by
          unfold TrieNode.HasMultiChildren at hmul
          simpa using hmul
        have : b.GetChildNode d = none := lookup_other_of_length_le_one hl hg hd
        rw [this]
        rfl

/-! ### The loop of `DeleteNodeIfNeeded` -/

theorem DeleteNodeIfNeeded_loop_spec (root : TrieNode Ty Val) (rest : List Char) (i : Nat)
    (cur : Handle) (n : TrieNode Ty Val) (mark : Option Handle) (idx : Nat)
    (leaf : TrieNode Ty Val) (hc : deref cur root = some n) (hl : deref rest n = some leaf)
    (hleaf : leaf.HasChildren = false) :
    (IsChain rest n ∧
        Trie.DeleteNodeIfNeeded.loop root rest i (some cur) mark idx = some (mark, idx)) ∨
      ∃ p c s a b, rest = p ++ c :: s ∧ deref p n = some a ∧ a.GetChildNode c = some b ∧
        IsChain s b ∧ (a.HasMultiChildren || a.IsEndNode) = true ∧
        Trie.DeleteNodeIfNeeded.loop root rest i (some cur) mark idx =
          some (some (cur ++ p), i + p.length) := by
  induction rest generalizing i cur n mark idx with
  | nil =>
    left
    simp only [deref, Option.some.injEq] at hl
    subst hl
    exact ⟨hleaf, rfl⟩
  | cons ch rest ih =>
    simp only [deref] at hl
    cases hg : n.GetChildNode ch with
    | none => simp [hg] at hl
    | some m =>
      rw [hg] at hl
      have hc1 : deref (cur ++ [ch]) root = some m := by
        rw [deref_append, hc]
        simp [deref, hg]
      by_cases hx : (n.HasMultiChildren || n.IsEndNode) = true
      · right
        have hloop : Trie.DeleteNodeIfNeeded.loop root (ch :: rest) i (some cur) mark idx
            = Trie.DeleteNodeIfNeeded.loop root rest (i + 1) (some (cur ++ [ch])) (some cur) i := by
          simp only [Trie.DeleteNodeIfNeeded.loop, hc, hg, hx, Option.isSome_some, if_true]
        rcases ih (i + 1) (cur ++ [ch]) m (some cur) i hc1 hl with
          ⟨hch, hres⟩ | ⟨p, c, s, a, b, hsplit, hd, hgc, hch, hab, hres⟩
        · refine ⟨[], ch, rest, n, m, rfl, rfl, hg, hch, hx, ?_⟩
          rw [hloop, hres]
          simp
        · refine ⟨ch :: p, c, s, a, b, by rw [hsplit]; rfl, by simpa [deref, hg] using hd,
            hgc, hch, hab, ?_⟩
          rw [hloop, hres]
          have e1 : cur ++ [ch] ++ p = cur ++ ch :: p := by simp
          have e2 : i + 1 + p.length = i + (ch :: p).length := by
            simp only [List.length_cons]
            omega
          rw [e1, e2]
      · have hloop : Trie.DeleteNodeIfNeeded.loop root (ch :: rest) i (some cur) mark idx
            = Trie.DeleteNodeIfNeeded.loop root rest (i + 1) (some (cur ++ [ch])) mark idx := by
          simp only [Trie.DeleteNodeIfNeeded.loop, hc, hg, hx, Option.isSome_some, if_true]
          simp
        have hx1 : n.HasMultiChildren = false ∧ n.IsEndNode = false := by
          cases h1 : n.HasMultiChildren <;> cases h2 : n.IsEndNode <;> simp [h1, h2] at hx ⊢
        rcases ih (i + 1) (cur ++ [ch]) m mark idx hc1 hl with
          ⟨hch, hres⟩ | ⟨p, c, s, a, b, hsplit, hd, hgc, hch, hab, hres⟩
        · left
          exact ⟨⟨hx1.2, hx1.1, m, hg, hch⟩, by rw [hloop, hres]⟩
        · right
          refine ⟨ch :: p, c, s, a, b, by rw [hsplit]; rfl, by simpa [deref, hg] using hd,
            hgc, hch, hab, ?_⟩
          rw [hloop, hres]
          have e1 : cur ++ [ch] ++ p = cur ++ ch :: p := by simp
          have e2 : i + 1 + p.length = i + (ch :: p).length := by
            simp only [List.length_cons]
            omega
          rw [e1, e2]

end RemoveLemmas

section RemoveSpec

variable {Ty : Type} {Val : Ty → Type}

/-! ### What `Remove` does -/

theorem Remove_nil (t : Trie Ty Val) : t.Remove [] = some (t, false) := rfl

theorem Remove_loop_root (root : TrieNode Ty Val) (pre : Handle) (c : Char) :
    Trie.Remove.loop root (pre ++ [c]) none [] =
      match deref (pre ++ [c]) root with
      | none => none
      | some _ => some (some pre, pre ++ [c]) := by
  rw [Remove_loop_spec root (pre ++ [c]) none [] root rfl]
  cases deref (pre ++ [c]) root with
  | none => rfl
  | some x => simp

/-- A key whose path is missing: `Remove` returns false and leaves the trie alone. -/
theorem Remove_missing (t : Trie Ty Val) (key : List Char) (h : deref key t.root_ = none) :
    t.Remove key = some (t, false) := by
  rcases List.eq_nil_or_concat key with hk | ⟨pre, c, hk⟩
  · subst hk
    rfl
  · rw [List.concat_eq_append] at hk
    subst hk
    have he : (pre ++ [c]).isEmpty = false := by simp
    simp only [Trie.Remove, he, Bool.false_eq_true, if_false, Remove_loop_root, h]

/-- A key whose node has children: `Remove` takes the node out of its parent and puts it
back, and returns true. -/
theorem Remove_inner (t : Trie Ty Val) (key : List Char) (node : TrieNode Ty Val)
    (hk : key ≠ []) (hd : deref key t.root_ = some node) (hc : node.HasChildren = true) :
    ∃ pre c p, key = pre ++ [c] ∧ deref pre t.root_ = some p ∧ p.GetChildNode c = some node ∧
      t.Remove key = some (⟨store pre t.root_
        (((p.RemoveChildNode c).InsertChildNode c node).getD (p.RemoveChildNode c))⟩, true) := by
  rcases List.eq_nil_or_concat key with hk1 | ⟨pre, c, hk1⟩
  · exact absurd hk1 hk
  · rw [List.concat_eq_append] at hk1
    subst hk1
    have hd1 := hd
    rw [deref_append] at hd1
    cases hp : deref pre t.root_ with
    | none => simp [hp] at hd1
    | some p =>
      rw [hp, Option.some_bind] at hd1
      have hg : p.GetChildNode c = some node := by
        simp only [deref] at hd1
        cases hg : p.GetChildNode c with
        | none => simp [hg] at hd1
        | some m => simpa [hg] using hd1
      refine ⟨pre, c, p, rfl, hp, hg, ?_⟩
      have he : (pre ++ [c]).isEmpty = false := by simp
      simp only [Trie.Remove, he, Bool.false_eq_true, if_false, Remove_loop_root, hd, hc,
        Bool.not_true, Bool.false_and, hp, List.getLastD_concat]

/-- A key whose node has no children: `Remove` aborts when the whole trie is the chain of
that key, and otherwise cuts the chain off below the last node on the path that is terminal
or has more than one child, and returns true. -/
theorem Remove_leaf (t : Trie Ty Val) (key : List Char) (leaf : TrieNode Ty Val)
    (hk : key ≠ []) (hd : deref key t.root_ = some leaf) (hc : leaf.HasChildren = false) :
    (IsChain key t.root_ ∧ t.Remove key = none) ∨
      ∃ p c s a b, key = p ++ c :: s ∧ deref p t.root_ = some a ∧ a.GetChildNode c = some b ∧
        IsChain s b ∧ (a.HasMultiChildren || a.IsEndNode) = true ∧
        t.Remove key = some (⟨store p t.root_ (a.RemoveChildNode c)⟩, true) := by
  have hrem : t.Remove key =
      match t.DeleteNodeIfNeeded key with
      | none => none
      | some t1 => some (t1, true) := by
    rcases List.eq_nil_or_concat key with hk1 | ⟨pre, c, hk1⟩
    · exact absurd hk1 hk
    · rw [List.concat_eq_append] at hk1
      subst hk1
      have he : (pre ++ [c]).isEmpty = false := by simp
      have hne : (pre ++ [c] != []) = true := by simp
      simp only [Trie.Remove, he, Bool.false_eq_true, if_false, Remove_loop_root, hd, hc,
        Bool.not_false, Bool.true_and, hne, if_true]
  rcases DeleteNodeIfNeeded_loop_spec t.root_ key 0 [] t.root_ none 0 leaf rfl hd hc with
    ⟨hch, hres⟩ | ⟨p, c, s, a, b, hsplit, hda, hgc, hch, hab, hres⟩
  · left
    refine ⟨hch, ?_⟩
    rw [hrem]
    simp only [Trie.DeleteNodeIfNeeded, hres]
  · right
    refine ⟨p, c, s, a, b, hsplit, hda, hgc, hch, hab, ?_⟩
    have hidx : key.getD (0 + p.length) (Char.ofNat 0) = c := by
      rw [hsplit, Nat.zero_add, List.getD_append_right _ _ _ _ (Nat.le_refl _)]
      simp
    rw [hrem]
    simp only [Trie.DeleteNodeIfNeeded, hres, List.nil_append, hda, hidx]

end RemoveSpec

section Invariants

variable {Ty : Type} {Val : Ty → Type}

/-! ### Properties of every node -/

theorem allNodes_here {P : TrieNode Ty Val → Prop} {n : TrieNode Ty Val}
    (h : AllNodes P n) : P n := by
  cases h with
  | mk _ here _ => exact here

theorem allNodes_below {P : TrieNode Ty Val → Prop} {n : TrieNode Ty Val}
    (h : AllNodes P n) : ∀ e, e ∈ n.children_ → AllNodes P e.2 := by
  cases h with
  | mk _ _ below => exact below

theorem allNodes_child {P : TrieNode Ty Val → Prop} {n m : TrieNode Ty Val} {c : Char}
    (h : AllNodes P n) (hg : n.GetChildNode c = some m) : AllNodes P m :=
  allNodes_below h (c, m) (mem_children_of_GetChildNode hg)

theorem allNodes_deref {P : TrieNode Ty Val → Prop} {p : Handle} {root n : TrieNode Ty Val}
    (h : AllNodes P root) (hd : deref p root = some n) : AllNodes P n := by
  induction p generalizing root with
  | nil =>
    cases hd
    exact h
  | cons c p ih =>
    simp only [bustub.deref] at hd
    cases hg : root.GetChildNode c with
    | none => simp [hg] at hd
    | some m =>
      rw [hg] at hd
      exact ih (allNodes_child h hg) hd

theorem store_key_char {p : Handle} {root n n1 : TrieNode Ty Val} (hd : deref p root = some n)
    (h : n1.key_char_ = n.key_char_) : (store p root n1).key_char_ = root.key_char_ := by
  cases p with
  | nil =>
    cases hd
    exact h
  | cons c p => exact store_cons_key_char c p root n1

theorem store_is_end {p : Handle} {root n n1 : TrieNode Ty Val} (hd : deref p root = some n)
    (h : n1.is_end_ = n.is_end_) : (store p root n1).is_end_ = root.is_end_ := by
  cases p with
  | nil =>
    cases hd
    exact h
  | cons c p => exact store_cons_is_end c p root n1

theorem store_value {p : Handle} {root n n1 : TrieNode Ty Val} (hd : deref p root = some n)
    (h : n1.value_ = n.value_) : (store p root n1).value_ = root.value_ := by
  cases p with
  | nil =>
    cases hd
    exact h
  | cons c p => exact store_cons_value c p root n1

/-- Replacing the node at a handle by a node with the same key character keeps a property of
every node, when the property of a node survives the replacement of one of its children by
a node with the same key character. -/
theorem allNodes_store {P : TrieNode Ty Val → Prop}
    (hP : ∀ (x : TrieNode Ty Val) (c : Char) (old y : TrieNode Ty Val), P x →
      x.GetChildNode c = some old → y.key_char_ = old.key_char_ → P (x.setChild c y))
    {p : Handle} {root n n1 : TrieNode Ty Val} (h : AllNodes P root)
    (hd : bustub.deref p root = some n) (h1 : AllNodes P n1)
    (hk : n1.key_char_ = n.key_char_) : AllNodes P (bustub.store p root n1) := by
  induction p generalizing root with
  | nil => exact h1
  | cons c p ih =>
    simp only [bustub.deref] at hd
    cases hg : root.GetChildNode c with
    | none => simp [hg] at hd
    | some m =>
      rw [hg] at hd
      simp only [bustub.store, hg]
      have hkey : (bustub.store p m n1).key_char_ = m.key_char_ := store_key_char hd hk
      refine AllNodes.mk _ (hP root c m _ (allNodes_here h) hg hkey) ?_
      intro e he
      rw [setChild_children] at he
      obtain ⟨e0, he0, rfl⟩ := List.mem_map.1 he
      by_cases hc : (e0.1 == c) = true
      · rw [if_pos hc]
        exact ih (allNodes_child h hg) hd
      · rw [if_neg hc]
        exact allNodes_below h e0 he0

/-- A node whose children are a new entry and some of the children of a good node. -/
theorem allNodes_mk_cons_filter {P : TrieNode Ty Val → Prop} {n x : TrieNode Ty Val}
    (h : AllNodes P n) (hx : AllNodes P x) (k : Char) (e : Bool) (c : Char)
    (f : Char × TrieNode Ty Val → Bool) (v : Option ((T : Ty) × Val T))
    (hP : P (TrieNode.mk k e ((c, x) :: n.children_.filter f) v)) :
    AllNodes P (TrieNode.mk k e ((c, x) :: n.children_.filter f) v) := by
  refine AllNodes.mk _ hP ?_
  intro y hy
  rw [children_mk] at hy
  rcases List.mem_cons.1 hy with rfl | hy1
  · exact hx
  · exact allNodes_below h y (List.mem_filter.1 hy1).1

theorem allNodes_RemoveChildNode {P : TrieNode Ty Val → Prop} {n : TrieNode Ty Val}
    (h : AllNodes P n) (c : Char) (hP : P (n.RemoveChildNode c)) :
    AllNodes P (n.RemoveChildNode c) := by
  refine AllNodes.mk _ hP ?_
  intro y hy
  rw [RemoveChildNode_children] at hy
  exact allNodes_below h y (List.mem_filter.1 hy).1

/-! ### Matching child keys -/

theorem keysMatch_setChild (x : TrieNode Ty Val) (c : Char) (old y : TrieNode Ty Val)
    (h : KeysMatch x) (hg : x.GetChildNode c = some old) (hk : y.key_char_ = old.key_char_) :
    KeysMatch (x.setChild c y) := by
  intro e he
  rw [setChild_children] at he
  obtain ⟨e0, he0, rfl⟩ := List.mem_map.1 he
  by_cases hc : (e0.1 == c) = true
  · rw [if_pos hc]
    have h1 : old.key_char_ = c := h _ (mem_children_of_GetChildNode hg)
    have h2 : e0.1 = c := by simpa using hc
    show y.key_char_ = e0.1
    rw [hk, h1, h2]
  · rw [if_neg hc]
    exact h e0 he0

theorem keysMatch_mk_cons_filter {n x : TrieNode Ty Val} (h : KeysMatch n) (k : Char)
    (e : Bool) {c : Char} (hx : x.key_char_ = c) (f : Char × TrieNode Ty Val → Bool)
    (v : Option ((T : Ty) × Val T)) :
    KeysMatch (TrieNode.mk k e ((c, x) :: n.children_.filter f) v) := by
  intro y hy
  rw [children_mk] at hy
  rcases List.mem_cons.1 hy with rfl | hy1
  · exact hx
  · exact h y (List.mem_filter.1 hy1).1

theorem keysMatch_RemoveChildNode {n : TrieNode Ty Val} (h : KeysMatch n) (c : Char) :
    KeysMatch (n.RemoveChildNode c) := by
  intro y hy
  rw [RemoveChildNode_children] at hy
  exact h y (List.mem_filter.1 hy).1

theorem keysMatch_chain (T : Ty) (v : Val T) (ch : Char) (rest : List Char) :
    KeysMatch (chain T v ch rest : TrieNode Ty Val) := by
  cases rest with
  | nil =>
    intro y hy
    cases hy
  | cons c1 rest =>
    intro y hy
    have : y = (c1, bustub.chain T v c1 rest) := by
      simpa [bustub.chain] using hy
    subst this
    exact chain_key_char T v c1 rest

theorem relink_eq {p node : TrieNode Ty Val} {c : Char} (hk : node.key_char_ = c) :
    ((p.RemoveChildNode c).InsertChildNode c node).getD (p.RemoveChildNode c) =
      TrieNode.mk p.key_char_ p.is_end_ ((c, node) :: p.children_.filter fun e => e.1 != c)
        p.value_ := by
  rw [InsertChildNode_eq _ _ _ (GetChildNode_RemoveChildNode_self p c) hk]
  simp only [Option.getD_some, RemoveChildNode_key_char, RemoveChildNode_is_end,
    RemoveChildNode_value, RemoveChildNode_children]

theorem keysMatch_stable : Stable (KeysMatch : TrieNode Ty Val → Prop) where
  onSetChild := keysMatch_setChild
  onRelink := fun n _ _ h hx => keysMatch_mk_cons_filter h n.key_char_ n.is_end_ hx _ n.value_
  onRemove := fun _ c h => keysMatch_RemoveChildNode h c
  onChain := keysMatch_chain
  onPromote := fun _ _ _ h => h

theorem nodupKeys_stable : Stable (NodupKeys : TrieNode Ty Val → Prop) where
  onSetChild := by
    intro x c old y h _ _
    unfold NodupKeys at h ⊢
    have : (x.setChild c y).children_.map Prod.fst = x.children_.map Prod.fst := by
      rw [setChild_children, List.map_map]
      refine List.map_congr_left ?_
      intro e _
      simp only [Function.comp]
      split <;> rfl
    rw [this]
    exact h
  onRelink := by
    intro n x c h _
    unfold NodupKeys at h ⊢
    rw [children_mk, List.map_cons, List.nodup_cons]
    refine ⟨?_, h.sublist ((List.filter_sublist _).map _)⟩
    intro hc
    obtain ⟨e, he, hec⟩ := List.mem_map.1 hc
    have := (List.mem_filter.1 he).2
    simp [hec] at this
  onRemove := by
    intro n c h
    unfold NodupKeys at h ⊢
    rw [RemoveChildNode_children]
    exact h.sublist ((List.filter_sublist _).map _)
  onChain := by
    intro T v ch rest
    cases rest with
    | nil => exact List.nodup_nil
    | cons c1 rest => exact List.nodup_singleton c1
  onPromote := fun _ _ _ h => h

/-- `Insert` keeps a stable property of every node. -/
theorem Insert_allNodes {P : TrieNode Ty Val → Prop} (hP : Stable P) {t t1 : Trie Ty Val}
    {T : Ty} {key : List Char} {v : Val T} {b : Bool} (hm : AllNodes KeysMatch t.root_)
    (h : AllNodes P t.root_) (hi : t.Insert T key v = some (t1, b)) :
    AllNodes P t1.root_ := by
  rcases Insert_spec t T key v with ⟨_, hres⟩ | ⟨_, _, p, ch, rest, cur0, cur1, _, hd, hstep, hres⟩
  · rw [hres] at hi
    cases hi
    exact h
  · rw [hres] at hi
    cases hi
    have h0 : AllNodes P cur0 := allNodes_deref h hd
    obtain ⟨x, hx, hxk, _, _, hxs⟩ := InsertedAt_eq hstep (allNodes_here (allNodes_deref hm hd))
    have hxa : AllNodes P x := by
      rcases hxs with rfl | ⟨search, hg, _, rfl⟩
      · exact allNodes_chain _ T v (hP.onChain T v) ch rest
      · have hs := allNodes_child h0 hg
        have hs2 : ∀ e, e ∈ search.children_ → AllNodes P e.2 := allNodes_below hs
        exact AllNodes.mk _ (hP.onPromote search T v (allNodes_here hs)) hs2
    refine allNodes_store hP.onSetChild h hd ?_ (InsertedAt_fields hstep).1
    rw [hx]
    exact allNodes_mk_cons_filter h0 hxa _ _ _ _ _ (hP.onRelink cur0 x ch (allNodes_here h0) hxk)

/-- `Remove` keeps a stable property of every node. -/
theorem Remove_allNodes {P : TrieNode Ty Val → Prop} (hP : Stable P) {t t1 : Trie Ty Val}
    {key : List Char} {b : Bool} (hm : AllNodes KeysMatch t.root_) (h : AllNodes P t.root_)
    (hr : t.Remove key = some (t1, b)) : AllNodes P t1.root_ := by
  by_cases hk : key = []
  · subst hk
    rw [Remove_nil] at hr
    cases hr
    exact h
  · cases hd : deref key t.root_ with
    | none =>
      rw [Remove_missing t key hd] at hr
      cases hr
      exact h
    | some node =>
      cases hc : node.HasChildren with
      | true =>
        obtain ⟨pre, c, p, _, hp, hg, hres⟩ := Remove_inner t key node hk hd hc
        rw [hres] at hr
        cases hr
        have h0 : AllNodes P p := allNodes_deref h hp
        have hkc : node.key_char_ = c :=
          allNodes_here (allNodes_deref hm hp) _ (mem_children_of_GetChildNode hg)
        refine allNodes_store hP.onSetChild h hp ?_ ?_
        · rw [relink_eq hkc]
          exact allNodes_mk_cons_filter h0 (allNodes_child h0 hg) _ _ _ _ _
            (hP.onRelink p node c (allNodes_here h0) hkc)
        · rw [relink_eq hkc]
          rfl
      | false =>
        rcases Remove_leaf t key node hk hd hc with ⟨_, hres⟩ | ⟨p, c, s, a, b1, _, hda, _, _, _, hres⟩
        · rw [hres] at hr
          cases hr
        · rw [hres] at hr
          cases hr
          have h0 : AllNodes P a := allNodes_deref h hda
          exact allNodes_store hP.onSetChild h hda
            (allNodes_RemoveChildNode h0 c (hP.onRemove a c (allNodes_here h0)))
            (RemoveChildNode_key_char a c)

/-- `Insert` keeps the key character, the terminal flag and the value of the root. -/
theorem Insert_root_fields {t t1 : Trie Ty Val} {T : Ty} {key : List Char} {v : Val T}
    {b : Bool} (hi : t.Insert T key v = some (t1, b)) :
    t1.root_.key_char_ = t.root_.key_char_ ∧ t1.root_.is_end_ = t.root_.is_end_ ∧
      t1.root_.value_ = t.root_.value_ := by
  rcases Insert_spec t T key v with ⟨_, hres⟩ | ⟨_, _, p, ch, rest, cur0, cur1, _, hd, hstep, hres⟩
  · rw [hres] at hi
    cases hi
    exact ⟨rfl, rfl, rfl⟩
  · rw [hres] at hi
    cases hi
    obtain ⟨h1, h2, h3⟩ := InsertedAt_fields hstep
    exact ⟨store_key_char hd h1, store_is_end hd h2, store_value hd h3⟩

/-- `Remove` keeps the key character, the terminal flag and the value of the root. -/
theorem Remove_root_fields {t t1 : Trie Ty Val} {key : List Char} {b : Bool}
    (h : AllNodes KeysMatch t.root_) (hr : t.Remove key = some (t1, b)) :
    t1.root_.key_char_ = t.root_.key_char_ ∧ t1.root_.is_end_ = t.root_.is_end_ ∧
      t1.root_.value_ = t.root_.value_ := by
  by_cases hk : key = []
  · subst hk
    rw [Remove_nil] at hr
    cases hr
    exact ⟨rfl, rfl, rfl⟩
  · cases hd : deref key t.root_ with
    | none =>
      rw [Remove_missing t key hd] at hr
      cases hr
      exact ⟨rfl, rfl, rfl⟩
    | some node =>
      cases hc : node.HasChildren with
      | true =>
        obtain ⟨pre, c, p, _, hp, hg, hres⟩ := Remove_inner t key node hk hd hc
        rw [hres] at hr
        cases hr
        have hkc : node.key_char_ = c :=
          allNodes_here (allNodes_deref h hp) _ (mem_children_of_GetChildNode hg)
        rw [relink_eq hkc]
        exact ⟨store_key_char hp rfl, store_is_end hp rfl, store_value hp rfl⟩
      | false =>
        rcases Remove_leaf t key node hk hd hc with ⟨_, hres⟩ | ⟨p, c, s, a, b1, _, hda, _, _, _, hres⟩
        · rw [hres] at hr
          cases hr
        · rw [hres] at hr
          cases hr
          exact ⟨store_key_char hda (RemoveChildNode_key_char a c),
            store_is_end hda (RemoveChildNode_is_end a c),
            store_value hda (RemoveChildNode_value a c)⟩

/-- In a reachable trie the child keys match and the root is a plain node, not terminal,
with key character NUL. -/
theorem reachable_inv {t : Trie Ty Val} (h : Reachable t) :
    AllNodes KeysMatch t.root_ ∧ t.root_.key_char_ = Char.ofNat 0 ∧ t.root_.is_end_ = false ∧
      t.root_.value_ = none := by
  induction h with
  | new =>
    refine ⟨AllNodes.mk _ ?_ ?_, rfl, rfl, rfl⟩
    · intro e he
      cases he
    · intro e he
      cases he
  | Insert _ hi ih =>
    obtain ⟨h1, h2, h3⟩ := Insert_root_fields hi
    exact ⟨Insert_allNodes keysMatch_stable ih.1 ih.1 hi, h1.trans ih.2.1, h2.trans ih.2.2.1,
      h3.trans ih.2.2.2⟩
  | Remove _ hr ih =>
    obtain ⟨h1, h2, h3⟩ := Remove_root_fields ih.1 hr
    exact ⟨Remove_allNodes keysMatch_stable ih.1 ih.1 hr, h1.trans ih.2.1, h2.trans ih.2.2.1,
      h3.trans ih.2.2.2⟩

/-- In a reachable trie no children map has two entries for one key character: the
association list stands for a map. -/
theorem reachable_nodupKeys {t : Trie Ty Val} (h : Reachable t) :
    AllNodes NodupKeys t.root_ := by
  induction h with
  | new =>
    refine AllNodes.mk _ List.nodup_nil ?_
    intro e he
    cases he
  | Insert hreach hi ih => exact Insert_allNodes nodupKeys_stable (reachable_inv hreach).1 ih hi
  | Remove hreach hr ih => exact Remove_allNodes nodupKeys_stable (reachable_inv hreach).1 ih hr

end Invariants

section ConcreteTries

/-! ### The concrete tries are reachable -/

theorem trieA_reachable : Reachable trieA :=
  Reachable.Insert Reachable.new
    (show Trie.new.Insert CppType.int ['a'] (5 : Int) = some (trieA, true) from rfl)

theorem trieA_AA_reachable : Reachable trieA_AA :=
  Reachable.Insert trieA_reachable
    (show trieA.Insert CppType.int ['a', 'a'] (6 : Int) = some (trieA_AA, true) from rfl)

theorem trieAB_reachable : Reachable trieAB :=
  Reachable.Insert Reachable.new
    (show Trie.new.Insert CppType.int ['a', 'b'] (5 : Int) = some (trieAB, true) from rfl)

theorem trieAB_AC_reachable : Reachable trieAB_AC :=
  Reachable.Insert trieAB_reachable
    (show trieAB.Insert CppType.int ['a', 'c'] (6 : Int) = some (trieAB_AC, true) from rfl)

theorem trieAA_reachable : Reachable trieAA :=
  Reachable.Insert Reachable.new
    (show Trie.new.Insert CppType.string ['a', 'a'] "val" = some (trieAA, true) from rfl)

end ConcreteTries

section Claims

variable {Ty : Type} {Val : Ty → Type}

/-! ### Lookups through the node of a key -/

theorem found_of_missing {k : List Char} {root : TrieNode Ty Val} (h : deref k root = none) :
    found k root = none := by
  rw [found_eq_deref, h]
  rfl

theorem found_of_not_end {k : List Char} {root n : TrieNode Ty Val} (h : deref k root = some n)
    (he : n.IsEndNode = false) : found k root = none := by
  rw [found_eq_deref, h, Option.some_bind, found_nil, he]
  rfl

theorem found_of_end {k : List Char} {root n : TrieNode Ty Val} (h : deref k root = some n)
    (he : n.IsEndNode = true) : found k root = some n.value_ := by
  rw [found_eq_deref, h, Option.some_bind, found_nil, he]
  rfl

theorem SearchForKey_of_end {k : List Char} {root n : TrieNode Ty Val}
    (h : deref k root = some n) (he : n.IsEndNode = true) :
    Trie.SearchForKey k root = some n := by
  rw [SearchForKey_eq_deref, h, Option.some_bind, he]
  rfl

theorem SearchForKey_of_not_Stores {t : Trie Ty Val} {k : List Char}
    (h : t.Stores k = false) : Trie.SearchForKey k t.root_ = none := by
  rw [SearchForKey_eq_deref]
  unfold Trie.Stores Trie.nodeOf at h
  cases hd : deref k t.root_ with
  | none => rfl
  | some n =>
    rw [hd] at h
    simp only at h
    rw [Option.some_bind, h]
    rfl

theorem GetValue_of_found_ne [DecidableEq Ty] [∀ T, Inhabited (Val T)] {t : Trie Ty Val}
    {k : List Char} {S T : Ty} {v : Val S} (h : found k t.root_ = some (some ⟨S, v⟩))
    (hT : T ≠ S) : t.GetValue T k = (default, false) := by
  unfold found at h
  unfold Trie.GetValue
  cases h1 : Trie.SearchForKey k t.root_ with
  | none => simp [h1] at h
  | some a =>
    simp only [h1, Option.map_some', Option.some.injEq] at h
    simp only [h]
    rw [dif_neg (fun h2 => hT h2.symm)]

/-! ### The claims -/

/-- C1. Insert-then-get round trip: for every trie reachable from the empty trie by
`Insert`/`Remove` calls, every non-empty key `k` that is not stored in it, and every value
`v` of type `T`, `Insert(k, v)` returns true, and afterwards `GetValue<T>(k)` returns `v`
with success = true. -/
theorem C1_insert_then_get [DecidableEq Ty] [∀ T, Inhabited (Val T)] (t : Trie Ty Val)
    (hr : Reachable t) (k : List Char) (hk : k ≠ []) (hs : t.Stores k = false) (T : Ty)
    (v : Val T) :
    ∃ t1, t.Insert T k v = some (t1, true) ∧ t1.GetValue T k = (v, true) := by
  rcases Insert_spec t T k v with ⟨hcase, _⟩ | ⟨_, _, p, ch, rest, cur0, cur1, hsplit, hd, hstep, hres⟩
  · rcases hcase with h0 | ⟨n, hn⟩
    · exact absurd h0 hk
    · rw [SearchForKey_of_not_Stores hs] at hn
      cases hn
  · refine ⟨_, hres, GetValue_of_found ?_⟩
    have hm : KeysMatch cur0 := allNodes_here (allNodes_deref (reachable_inv hr).1 hd)
    show found k (store p t.root_ cur1) = _
    rw [hsplit, found_store_append hd]
    exact (found_InsertedAt hstep hm).1

/-- A witness of C1: inserting the new key "ab" into the trie that holds "a". -/
theorem C1_insert_then_get_witness :
    Reachable trieA ∧ trieA.Stores ['a', 'b'] = false ∧
      ∃ t1, trieA.Insert CppType.int ['a', 'b'] (7 : Int) = some (t1, true) ∧
        t1.GetValue CppType.int ['a', 'b'] = ((7 : Int), true) :=
  ⟨trieA_reachable, rfl,
    C1_insert_then_get trieA trieA_reachable ['a', 'b'] (by decide) rfl CppType.int (7 : Int)⟩

/-- C2. A duplicate insert is rejected without overwriting: for every reachable trie and
every key `k` already stored with value `v0` of type `S`, `Insert(k, v)` returns false for
every `v` of any type `T`, the trie is left unchanged, and `GetValue<S>(k)` still returns
`v0` with success = true. -/
theorem C2_duplicate_insert_rejected [DecidableEq Ty] [∀ T, Inhabited (Val T)]
    (t : Trie Ty Val) (_hr : Reachable t) (k : List Char) (S : Ty) (v0 : Val S)
    (n : TrieNode Ty Val) (hn : t.nodeOf k = some n) (he : n.IsEndNode = true)
    (hv : n.value_ = some ⟨S, v0⟩) (T : Ty) (v : Val T) :
    ∃ t1, t.Insert T k v = some (t1, false) ∧ t1 = t ∧ t1.GetValue S k = (v0, true) := by
  have hg : t.GetValue S k = (v0, true) :=
    GetValue_of_found (by rw [found_of_end hn he, hv])
  rcases Insert_spec t T k v with ⟨_, hres⟩ | ⟨_, hnone, _⟩
  · exact ⟨t, hres, rfl, hg⟩
  · rw [SearchForKey_of_end hn he] at hnone
    cases hnone

/-- A witness of C2: inserting a string under the key "a" into the trie that holds "a"
with the `int` 5. -/
theorem C2_duplicate_insert_rejected_witness :
    Reachable trieA ∧
      ∃ t1, trieA.Insert CppType.string ['a'] "x" = some (t1, false) ∧ t1 = trieA ∧
        t1.GetValue CppType.int ['a'] = ((5 : Int), true) :=
  ⟨trieA_reachable,
    C2_duplicate_insert_rejected trieA trieA_reachable ['a'] CppType.int (5 : Int)
      (TrieNode.mk 'a' true [] (some ⟨CppType.int, (5 : Int)⟩)) rfl rfl rfl CppType.string "x"⟩

/-- C3. Insert does not disturb other keys: for every reachable trie, every key `k` and
every value `v`, `Insert(k, v)` returns, and for every key `k1` different from `k` and
every requested type `S`, `GetValue<S>(k1)` gives the same value and success flag after
the call as before it. -/
theorem C3_insert_keeps_other_keys [DecidableEq Ty] [∀ T, Inhabited (Val T)]
    (t : Trie Ty Val) (hr : Reachable t) (k : List Char) (T : Ty) (v : Val T) :
    ∃ t1 b, t.Insert T k v = some (t1, b) ∧
      ∀ k1, k1 ≠ k → ∀ S, t1.GetValue S k1 = t.GetValue S k1 := by
  rcases Insert_spec t T k v with ⟨_, hres⟩ | ⟨_, _, p, ch, rest, cur0, cur1, hsplit, hd, hstep, hres⟩
  · exact ⟨t, false, hres, fun _ _ _ => rfl⟩
  · refine ⟨_, true, hres, ?_⟩
    intro k1 hk1 S
    have hm : KeysMatch cur0 := allNodes_here (allNodes_deref (reachable_inv hr).1 hd)
    refine GetValue_eq_of_found ?_ S
    show found k1 (store p t.root_ cur1) = found k1 t.root_
    exact found_store hd (found_InsertedAt hstep hm).2 k1 (by rw [← hsplit]; exact hk1)

/-- A witness of C3: inserting the `int` 5 under "a" into the trie that holds "aa" with a
string, which promotes the plain node of "a". -/
theorem C3_insert_keeps_other_keys_witness :
    Reachable trieAA ∧
      ∃ t1 b, trieAA.Insert CppType.int ['a'] (5 : Int) = some (t1, b) ∧
        ∀ k1, k1 ≠ ['a'] → ∀ S, t1.GetValue S k1 = trieAA.GetValue S k1 :=
  ⟨trieAA_reachable, C3_insert_keeps_other_keys trieAA trieAA_reachable ['a'] CppType.int (5 : Int)⟩

/-- C4. A type mismatch on retrieval is reported as not-found: for every reachable trie and
every key `k` stored with a value of type `S`, `GetValue<T>(k)` with `T` different from `S`
sets success = false, and `GetValue<S>(k)` sets success = true. -/
theorem C4_type_mismatch_not_found [DecidableEq Ty] [∀ T, Inhabited (Val T)]
    (t : Trie Ty Val) (_hr : Reachable t) (k : List Char) (S : Ty) (v : Val S)
    (n : TrieNode Ty Val) (hn : t.nodeOf k = some n) (he : n.IsEndNode = true)
    (hv : n.value_ = some ⟨S, v⟩) (T : Ty) (hT : T ≠ S) :
    (t.GetValue T k).2 = false ∧ (t.GetValue S k).2 = true := by
  have hf : found k t.root_ = some (some ⟨S, v⟩) := by rw [found_of_end hn he, hv]
  rw [GetValue_of_found_ne hf hT, GetValue_of_found hf]
  exact ⟨rfl, rfl⟩

/-- A witness of C4: asking for a string under "a" in the trie that holds "a" with the
`int` 5. -/
theorem C4_type_mismatch_not_found_witness :
    Reachable trieA ∧ CppType.string ≠ CppType.int ∧
      (trieA.GetValue CppType.string ['a']).2 = false ∧
      (trieA.GetValue CppType.int ['a']).2 = true :=
  ⟨trieA_reachable, by decide,
    C4_type_mismatch_not_found trieA trieA_reachable ['a'] CppType.int (5 : Int)
      (TrieNode.mk 'a' true [] (some ⟨CppType.int, (5 : Int)⟩)) rfl rfl rfl CppType.string
      (by decide)⟩

/-- C5. Get of an absent key reports not-found: for every reachable trie, every key `k` and
every type `T`, if some character of `k` has no node on the path from the root, or the path
exists but its final node is not terminal, then `GetValue<T>(k)` sets success = false. -/
theorem C5_absent_key_not_found [DecidableEq Ty] [∀ T, Inhabited (Val T)]
    (t : Trie Ty Val) (_hr : Reachable t) (k : List Char) (T : Ty)
    (h : t.nodeOf k = none ∨ ∃ n, t.nodeOf k = some n ∧ n.IsEndNode = false) :
    (t.GetValue T k).2 = false := by
  have hf : found k t.root_ = none := by
    rcases h with h | ⟨n, hn, he⟩
    · exact found_of_missing h
    · exact found_of_not_end hn he
  rw [GetValue_of_found_none hf]

/-- A witness of C5: the key "a" in the trie that holds "ab" only. -/
theorem C5_absent_key_not_found_witness :
    Reachable trieAB ∧ trieAB.Stores ['a'] = false ∧
      (trieAB.GetValue CppType.int ['a']).2 = false :=
  ⟨trieAB_reachable, rfl,
    C5_absent_key_not_found trieAB trieAB_reachable ['a'] CppType.int
      (Or.inr ⟨TrieNode.mk 'a' false
        [('b', TrieNode.mk 'b' true [] (some ⟨CppType.int, (5 : Int)⟩))] none, rfl, rfl⟩)⟩

/-- C6, the failing input. In the trie that holds the single key "a", a reachable trie in
which "a" is stored in a node without children, `Remove("a")` aborts: the loop of
`DeleteNodeIfNeeded` leaves `mark` null, and `mark` is dereferenced. -/
theorem C6_remove_of_only_key_aborts :
    Reachable trieA ∧
      trieA.nodeOf ['a'] =
        some (TrieNode.mk 'a' true [] (some ⟨CppType.int, (5 : Int)⟩)) ∧
      trieA.Remove ['a'] = none :=
  ⟨trieA_reachable, rfl, rfl⟩

/-- C7, the failing input. In the trie that holds "a" and "aa", a reachable trie in which
"a" is stored in a node with a child, `Remove("a")` returns true and leaves the node of "a"
terminal with its value: `GetValue<int>("a")` still returns 5 with success = true. -/
theorem C7_remove_keeps_inner_key :
    Reachable trieA_AA ∧
      trieA_AA.nodeOf ['a'] =
        some (TrieNode.mk 'a' true
          [('a', TrieNode.mk 'a' true [] (some ⟨CppType.int, (6 : Int)⟩))]
          (some ⟨CppType.int, (5 : Int)⟩)) ∧
      trieA_AA.Remove ['a'] = some (trieA_AA, true) ∧
      trieA_AA.GetValue CppType.int ['a'] = ((5 : Int), true) :=
  ⟨trieA_AA_reachable, rfl, rfl, rfl⟩

/-- C8. Removing a key that is a proper prefix of other keys keeps the longer keys: for
every reachable trie and every stored key `k` whose terminal node has children, `Remove(k)`
returns true, the node of `k` is still there with exactly the same children, and for every
key `k1` different from `k` and every type `T`, `GetValue<T>(k1)` gives the same value and
success flag as before the removal. -/
theorem C8_remove_inner_keeps_longer_keys [DecidableEq Ty] [∀ T, Inhabited (Val T)]
    (t : Trie Ty Val) (hr : Reachable t) (k : List Char) (n : TrieNode Ty Val)
    (hn : t.nodeOf k = some n) (he : n.IsEndNode = true) (hc : n.HasChildren = true) :
    ∃ t1, t.Remove k = some (t1, true) ∧
      (∃ n1, t1.nodeOf k = some n1 ∧ n1.children_ = n.children_) ∧
      ∀ k1, k1 ≠ k → ∀ T, t1.GetValue T k1 = t.GetValue T k1 := by
  have hk : k ≠ [] := by
    intro h0
    subst h0
    have : n = t.root_ := by
      have := hn
      simp only [Trie.nodeOf, deref, Option.some.injEq] at this
      exact this.symm
    subst this
    have := (reachable_inv hr).2.2.1
    unfold TrieNode.IsEndNode at he
    rw [this] at he
    cases he
  obtain ⟨pre, c, p, hsplit, hp, hg, hres⟩ := Remove_inner t k n hk hn hc
  have hkc : n.key_char_ = c :=
    allNodes_here (allNodes_deref (reachable_inv hr).1 hp) _ (mem_children_of_GetChildNode hg)
  rw [relink_eq hkc] at hres
  refine ⟨_, hres, ⟨n, ?_, rfl⟩, ?_⟩
  · show deref k (store pre t.root_ _) = some n
    rw [hsplit, deref_store_append hp]
    simp only [deref]
    have : (TrieNode.mk p.key_char_ p.is_end_
        ((c, n) :: p.children_.filter fun e => e.1 != c) p.value_).GetChildNode c = some n :=
      lookup_cons_self _ _ _
    rw [this]
  · intro k1 _ T
    refine GetValue_eq_of_found ?_ T
    show found k1 (store pre t.root_ _) = found k1 t.root_
    refine found_store_all hp ?_ k1
    intro k2
    cases k2 with
    | nil =>
      rw [found_nil, found_nil]
      rfl
    | cons d k2 =>
      rw [found_cons, found_cons]
      by_cases hd : d = c
      · subst hd
        show (List.lookup d ((d, n) :: _)).bind _ = _
        rw [lookup_cons_self, hg]
      · show (List.lookup d ((c, n) :: _)).bind _ = (List.lookup d _).bind _
        rw [lookup_cons_other hd, lookup_filter_other hd]

/-- A witness of C8: removing "a" from the trie that holds "a" and "aa". -/
theorem C8_remove_inner_keeps_longer_keys_witness :
    Reachable trieA_AA ∧
      ∃ t1, trieA_AA.Remove ['a'] = some (t1, true) ∧
        (∃ n1, t1.nodeOf ['a'] = some n1 ∧
          n1.children_ = [('a', TrieNode.mk 'a' true [] (some ⟨CppType.int, (6 : Int)⟩))]) ∧
        ∀ k1, k1 ≠ ['a'] → ∀ T, t1.GetValue T k1 = trieA_AA.GetValue T k1 :=
  ⟨trieA_AA_reachable,
    C8_remove_inner_keeps_longer_keys trieA_AA trieA_AA_reachable ['a']
      (TrieNode.mk 'a' true [('a', TrieNode.mk 'a' true [] (some ⟨CppType.int, (6 : Int)⟩))]
        (some ⟨CppType.int, (5 : Int)⟩)) rfl rfl rfl⟩

/-- C9. Removing a leaf key prunes only its own dead chain: for every reachable trie, every
stored key `k` whose terminal node has no children, every key `k1` different from `k` and
every type `T`, if `Remove(k)` returns true then `GetValue<T>(k1)` gives the same value and
success flag after the removal as before it. -/
theorem C9_remove_leaf_keeps_other_keys [DecidableEq Ty] [∀ T, Inhabited (Val T)]
    (t : Trie Ty Val) (_hr : Reachable t) (k : List Char) (n : TrieNode Ty Val)
    (hn : t.nodeOf k = some n) (_he : n.IsEndNode = true) (hc : n.HasChildren = false)
    (t1 : Trie Ty Val) (hrem : t.Remove k = some (t1, true)) (k1 : List Char) (hk1 : k1 ≠ k)
    (T : Ty) : t1.GetValue T k1 = t.GetValue T k1 := by
  have hk : k ≠ [] := by
    intro h0
    subst h0
    rw [Remove_nil] at hrem
    cases hrem
  rcases Remove_leaf t k n hk hn hc with ⟨_, hres⟩ | ⟨p, c, s, a, b, hsplit, hda, hgc, hch, _, hres⟩
  · rw [hres] at hrem
    cases hrem
  · rw [hres] at hrem
    cases hrem
    refine GetValue_eq_of_found ?_ T
    show found k1 (store p t.root_ (a.RemoveChildNode c)) = found k1 t.root_
    refine found_store hda ?_ k1 (by rw [← hsplit]; exact hk1)
    intro k2 hk2
    cases k2 with
    | nil =>
      rw [found_nil, found_nil]
      unfold TrieNode.IsEndNode
      rw [RemoveChildNode_is_end, RemoveChildNode_value]
    | cons d k2 =>
      rw [found_cons, found_cons]
      by_cases hd : d = c
      · subst hd
        rw [GetChildNode_RemoveChildNode_self, hgc, Option.some_bind,
          found_of_IsChain hch k2 (fun h => hk2 (by rw [h]))]
        rfl
      · rw [GetChildNode_RemoveChildNode_other _ hd]

/-- A witness of C9: removing "ab" from the trie that holds "ab" and "ac" keeps "ac". -/
theorem C9_remove_leaf_keeps_other_keys_witness :
    Reachable trieAB_AC ∧ trieAB_AC.Remove ['a', 'b'] = some (trieAC, true) ∧
      trieAC.GetValue CppType.int ['a', 'c'] = trieAB_AC.GetValue CppType.int ['a', 'c'] :=
  ⟨trieAB_AC_reachable, rfl,
    C9_remove_leaf_keeps_other_keys trieAB_AC trieAB_AC_reachable ['a', 'b']
      (TrieNode.mk 'b' true [] (some ⟨CppType.int, (5 : Int)⟩)) rfl rfl rfl trieAC rfl
      ['a', 'c'] (by decide) CppType.int⟩

/-- C10, the failing input. In the trie that holds the single key "ab", a reachable trie in
which the path of "a" exists and ends in a node that is not terminal, `Remove("a")` returns
true. -/
theorem C10_remove_of_path_only_key_returns_true :
    Reachable trieAB ∧
      trieAB.nodeOf ['a'] =
        some (TrieNode.mk 'a' false
          [('b', TrieNode.mk 'b' true [] (some ⟨CppType.int, (5 : Int)⟩))] none) ∧
      trieAB.Remove ['a'] = some (trieAB, true) :=
  ⟨trieAB_reachable, rfl, rfl⟩

end Claims

section ClaimsRemoveAndEmptyKeys

variable {Ty : Type} {Val : Ty → Type}

/-- C11. Remove of a key with a missing path fails cleanly: for every reachable trie and
every non-empty key `k` for which some character has no node on the path from the root,
`Remove(k)` returns false and leaves the trie unchanged, so that every `GetValue` result is
the same as before. -/
theorem C11_remove_missing_path_fails [DecidableEq Ty] [∀ T, Inhabited (Val T)]
    (t : Trie Ty Val) (_hr : Reachable t) (k : List Char) (_hk : k ≠ [])
    (hn : t.nodeOf k = none) :
    ∃ t1, t.Remove k = some (t1, false) ∧ t1 = t ∧
      ∀ k1 T, t1.GetValue T k1 = t.GetValue T k1 :=
  ⟨t, Remove_missing t k hn, rfl, fun _ _ => rfl⟩

/-- A witness of C11: removing "aaa" from the trie that holds "a" and "aa". -/
theorem C11_remove_missing_path_fails_witness :
    Reachable trieA_AA ∧ trieA_AA.nodeOf ['a', 'a', 'a'] = none ∧
      ∃ t1, trieA_AA.Remove ['a', 'a', 'a'] = some (t1, false) ∧ t1 = trieA_AA ∧
        ∀ k1 T, t1.GetValue T k1 = trieA_AA.GetValue T k1 :=
  ⟨trieA_AA_reachable, rfl,
    C11_remove_missing_path_fails trieA_AA trieA_AA_reachable ['a', 'a', 'a'] (by decide) rfl⟩

/-- C12. Empty keys are rejected by every operation: for every reachable trie and every
value `v`, `Insert("", v)` returns false and `Remove("")` returns false, both leaving the
trie unchanged, and `GetValue<T>("")` sets success = false for every type `T`. -/
theorem C12_empty_key_rejected [DecidableEq Ty] [∀ T, Inhabited (Val T)]
    (t : Trie Ty Val) (hr : Reachable t) :
    (∀ (T : Ty) (v : Val T), t.Insert T [] v = some (t, false)) ∧
      t.Remove [] = some (t, false) ∧ ∀ T, (t.GetValue T []).2 = false := by
  refine ⟨fun _ _ => rfl, rfl, ?_⟩
  intro T
  have hf : found [] t.root_ = none := by
    rw [found_nil]
    unfold TrieNode.IsEndNode
    rw [(reachable_inv hr).2.2.1]
    rfl
  rw [GetValue_of_found_none hf]

/-- A witness of C12: the empty key on the trie that holds "a". -/
theorem C12_empty_key_rejected_witness :
    (∀ (T : CppType) (v : CppVal T), trieA.Insert T [] v = some (trieA, false)) ∧
      trieA.Remove [] = some (trieA, false) ∧ ∀ T, (trieA.GetValue T []).2 = false :=
  C12_empty_key_rejected trieA trieA_reachable

/-- C13, the failing input. In the trie that holds the single key "ab", a reachable trie,
the loop of `DeleteNodeIfNeeded` ends with `mark` null, so `DeleteNodeIfNeeded("ab")`, and
with it `Remove("ab")`, aborts on the null `mark` instead of returning a boolean. -/
theorem C13_remove_aborts_on_null_mark :
    Reachable trieAB ∧
      Trie.DeleteNodeIfNeeded.loop trieAB.root_ ['a', 'b'] 0 (some []) none 0 = some (none, 0) ∧
      trieAB.DeleteNodeIfNeeded ['a', 'b'] = none ∧
      trieAB.Remove ['a', 'b'] = none :=
  ⟨trieAB_reachable, rfl, rfl, rfl⟩

/-- C14, the failing input. In the trie that holds "a" and "aa", a reachable trie in which
"a" is stored, `Remove("a")` returns true, and the following `Insert<int>("a", 9)` returns
false and leaves the trie as it was: `GetValue<int>("a")` returns the old value 5. -/
theorem C14_reinsert_after_remove_rejected :
    Reachable trieA_AA ∧ trieA_AA.Stores ['a'] = true ∧
      trieA_AA.Remove ['a'] = some (trieA_AA, true) ∧
      trieA_AA.Insert CppType.int ['a'] (9 : Int) = some (trieA_AA, false) ∧
      trieA_AA.GetValue CppType.int ['a'] = ((5 : Int), true) :=
  ⟨trieA_AA_reachable, rfl, rfl, rfl, rfl⟩

end ClaimsRemoveAndEmptyKeys

section ClaimsNodeOperations

variable {Ty : Type} {Val : Ty → Type}

theorem lookup_ne_none_of_mem {l : List (Char × TrieNode Ty Val)} {e : Char × TrieNode Ty Val}
    (h : e ∈ l) : (l.lookup e.1).isSome = true := by
  induction l with
  | nil => cases h
  | cons x l ih =>
    obtain ⟨a, m⟩ := x
    by_cases ha : e.1 = a
    · rw [ha, lookup_cons_self]
      rfl
    · rw [lookup_cons_other ha]
      rcases List.mem_cons.1 h with rfl | h1
      · exact absurd rfl ha
      · exact ih h1

/-- C15. `TrieNode::InsertChildNode(c, child)`, for a `child` that owns a node, returns
`nullptr` (the result `none`, with which the node and its children map stay as they were)
if the node already has a child for `c` or if the key character of `child` differs from
`c`; otherwise it stores `child` under `c` in front of the old entries, which it leaves
unchanged, and the handle it returns, the slot for `c`, holds `child`, whose
`GetKeyChar()` is `c`. -/
theorem C15_InsertChildNode_contract (n : TrieNode Ty Val) (c : Char)
    (child : TrieNode Ty Val) :
    ((n.HasChild c = true ∨ child.GetKeyChar ≠ c) → n.InsertChildNode c child = none) ∧
      ((n.HasChild c = false ∧ child.GetKeyChar = c) →
        ∃ n1, n.InsertChildNode c child = some n1 ∧
          n1.children_ = (c, child) :: n.children_ ∧
          n1.GetChildNode c = some child ∧ child.GetKeyChar = c ∧
          (∀ d, d ≠ c → n1.GetChildNode d = n.GetChildNode d ∧ n1.HasChild d = n.HasChild d) ∧
          n1.key_char_ = n.key_char_ ∧ n1.is_end_ = n.is_end_ ∧ n1.value_ = n.value_) := by
  constructor
  · intro h
    unfold TrieNode.InsertChildNode
    rw [if_pos]
    rcases h with h | h
    · simp [h]
    · have : (c != child.key_char_) = true := by
        simpa using fun h1 : c = child.key_char_ => h h1.symm
      simp [this]
  · rintro ⟨h1, h2⟩
    have hg : n.GetChildNode c = none := by
      rw [HasChild_eq] at h1
      cases hx : n.GetChildNode c with
      | none => rfl
      | some x => simp [hx] at h1
    refine ⟨_, InsertChildNode_eq n c child hg h2, rfl, lookup_cons_self _ _ _, h2, ?_,
      rfl, rfl, rfl⟩
    intro d hd
    have : (TrieNode.mk n.key_char_ n.is_end_ ((c, child) :: n.children_) n.value_).GetChildNode d
        = n.GetChildNode d := lookup_cons_other hd _ _
    refine ⟨this, ?_⟩
    rw [HasChild_eq, HasChild_eq, this]

/-- A witness of C15, the calls of the test `TrieNodeInsertTest`: a second child for 'b' and
a child 'b' under 'd' are refused, a child 'c' is stored. -/
theorem C15_InsertChildNode_contract_witness :
    nodeA_B.InsertChildNode 'b' (TrieNode.new 'b') = none ∧
      nodeA_B.InsertChildNode 'd' (TrieNode.new 'b') = none ∧
      ∃ n1, nodeA_B.InsertChildNode 'c' (TrieNode.new 'c') = some n1 ∧
        n1.children_ = ('c', TrieNode.new 'c') :: nodeA_B.children_ ∧
        n1.GetChildNode 'c' = some (TrieNode.new 'c') ∧
        (TrieNode.new 'c' : TrieNode CppType CppVal).GetKeyChar = 'c' ∧
        (∀ d, d ≠ 'c' →
          n1.GetChildNode d = nodeA_B.GetChildNode d ∧ n1.HasChild d = nodeA_B.HasChild d) ∧
        n1.key_char_ = nodeA_B.key_char_ ∧ n1.is_end_ = nodeA_B.is_end_ ∧
        n1.value_ = nodeA_B.value_ :=
  ⟨(C15_InsertChildNode_contract nodeA_B 'b' (TrieNode.new 'b')).1 (Or.inl rfl),
    (C15_InsertChildNode_contract nodeA_B 'd' (TrieNode.new 'b')).1 (Or.inr (by decide)),
    (C15_InsertChildNode_contract nodeA_B 'c' (TrieNode.new 'c')).2 ⟨rfl, rfl⟩⟩

/-- C16. `TrieNode::RemoveChildNode(c)` is a no-op when the node has no child for `c`;
otherwise it removes the entry for `c`: afterwards `HasChild(c)` is false and
`GetChildNode(c)` is `nullptr`, `HasChild` and `GetChildNode` are unchanged for every other
character, and `HasChildren()` is true exactly when some other child remains. -/
theorem C16_RemoveChildNode_contract (n : TrieNode Ty Val) (c : Char) :
    (n.HasChild c = false → n.RemoveChildNode c = n) ∧
      (n.RemoveChildNode c).HasChild c = false ∧
      (n.RemoveChildNode c).GetChildNode c = none ∧
      (∀ d, d ≠ c → (n.RemoveChildNode c).HasChild d = n.HasChild d ∧
        (n.RemoveChildNode c).GetChildNode d = n.GetChildNode d) ∧
      ((n.RemoveChildNode c).HasChildren = true ↔ ∃ d, d ≠ c ∧ n.HasChild d = true) ∧
      (n.RemoveChildNode c).key_char_ = n.key_char_ ∧
      (n.RemoveChildNode c).is_end_ = n.is_end_ ∧
      (n.RemoveChildNode c).value_ = n.value_ := by
  refine ⟨?_, ?_, GetChildNode_RemoveChildNode_self n c, ?_, ?_, RemoveChildNode_key_char n c,
    RemoveChildNode_is_end n c, RemoveChildNode_value n c⟩
  · intro h
    unfold TrieNode.HasChild at h
    unfold TrieNode.RemoveChildNode
    rw [if_pos]
    cases hx : n.children_.lookup c with
    | none => rfl
    | some x => simp [hx] at h
  · rw [HasChild_eq, GetChildNode_RemoveChildNode_self]
    rfl
  · intro d hd
    have := GetChildNode_RemoveChildNode_other n hd
    exact ⟨by rw [HasChild_eq, HasChild_eq, this], this⟩
  · unfold TrieNode.HasChildren
    rw [RemoveChildNode_children]
    constructor
    · intro h
      cases hf : n.children_.filter (fun e => e.1 != c) with
      | nil => simp [hf] at h
      | cons e l =>
        have he : e ∈ n.children_.filter (fun e => e.1 != c) := by
          rw [hf]
          exact List.mem_cons_self _ _
        obtain ⟨he1, he2⟩ := List.mem_filter.1 he
        exact ⟨e.1, by simpa using he2, lookup_ne_none_of_mem he1⟩
    · rintro ⟨d, hd, hh⟩
      unfold TrieNode.HasChild at hh
      cases hx : n.children_.lookup d with
      | none => simp [hx] at hh
      | some x =>
        have hm : (d, x) ∈ n.children_.filter (fun e => e.1 != c) :=
          List.mem_filter.2 ⟨mem_of_lookup hx, by simpa using hd⟩
        cases hf : n.children_.filter (fun e => e.1 != c) with
        | nil => simp [hf] at hm
        | cons e l => rfl

/-- A witness of C16, the first call of the test `TrieNodeRemoveTest`: removing the child
'b' from the node with the children 'b' and 'c' leaves the child 'c'; removing a child 'd'
does nothing. -/
theorem C16_RemoveChildNode_contract_witness :
    nodeA_CB.RemoveChildNode 'b' = nodeA_C ∧ nodeA_CB.RemoveChildNode 'd' = nodeA_CB ∧
      nodeA_C.HasChild 'b' = false ∧ nodeA_C.HasChildren = true ∧
      (nodeA_CB.RemoveChildNode 'd' = nodeA_CB ∧
        (nodeA_CB.RemoveChildNode 'b').HasChild 'b' = false) :=
  ⟨rfl, rfl, rfl, rfl,
    (C16_RemoveChildNode_contract nodeA_CB 'd').1 rfl,
    (C16_RemoveChildNode_contract nodeA_CB 'b').2.1⟩

end ClaimsNodeOperations

section ClaimsInvariants

variable {Ty : Type} {Val : Ty → Type}

/-! ### The terminal flag and the kind of a node -/

theorem endIffValue_stable : Stable (EndIffValue : TrieNode Ty Val → Prop) where
  onSetChild := fun _ _ _ _ h _ _ => h
  onRelink := fun _ _ _ h _ => h
  onRemove := by
    intro n c h
    unfold EndIffValue at h ⊢
    rw [RemoveChildNode_is_end, RemoveChildNode_value]
    exact h
  onChain := by
    intro T v ch rest
    cases rest <;> rfl
  onPromote := fun _ _ _ _ => rfl

theorem reachable_endIffValue {t : Trie Ty Val} (h : Reachable t) :
    AllNodes EndIffValue t.root_ := by
  induction h with
  | new =>
    refine AllNodes.mk _ rfl ?_
    intro e he
    cases he
  | Insert hreach hi ih => exact Insert_allNodes endIffValue_stable (reachable_inv hreach).1 ih hi
  | Remove hreach hr ih => exact Remove_allNodes endIffValue_stable (reachable_inv hreach).1 ih hr

/-- The node of a key and its parent: a key `k` that is not empty ends with a character
`c`, and its node is the child for `c` of the node of the key before `c`. -/
theorem deref_parent {k : List Char} {root n : TrieNode Ty Val} (hk : k ≠ [])
    (hd : deref k root = some n) :
    ∃ pre c p, k = pre ++ [c] ∧ deref pre root = some p ∧ p.GetChildNode c = some n := by
  rcases List.eq_nil_or_concat k with hk1 | ⟨pre, c, hk1⟩
  · exact absurd hk1 hk
  · rw [List.concat_eq_append] at hk1
    subst hk1
    rw [deref_append] at hd
    cases hp : deref pre root with
    | none => simp [hp] at hd
    | some p =>
      rw [hp, Option.some_bind] at hd
      refine ⟨pre, c, p, rfl, hp, ?_⟩
      simp only [deref] at hd
      cases hg : p.GetChildNode c with
      | none => simp [hg] at hd
      | some m => simpa [hg] using hd

/-- C19. The terminal flag matches the node kind: in every trie reachable from the empty
trie by `Insert`/`Remove` calls, the flag `is_end_` of a node is true if and only if the
node is a `TrieNodeWithValue`. This holds of every node of the tree, and so of the node of
every key. -/
theorem C19_terminal_flag_matches_kind (t : Trie Ty Val) (hr : Reachable t) :
    AllNodes EndIffValue t.root_ ∧
      ∀ k n, t.nodeOf k = some n →
        (n.IsEndNode = true ↔ ∃ (T : Ty) (v : Val T), n.value_ = some ⟨T, v⟩) := by
  have h := reachable_endIffValue hr
  refine ⟨h, ?_⟩
  intro k n hn
  have he : EndIffValue n := allNodes_here (allNodes_deref h hn)
  unfold EndIffValue at he
  unfold TrieNode.IsEndNode
  rw [he]
  cases hv : n.value_ with
  | none => simp
  | some x =>
    obtain ⟨T, v⟩ := x
    simp

/-- A witness of C19: the trie that holds "ab", with the plain node of "a" and the value
node of "ab". -/
theorem C19_terminal_flag_matches_kind_witness :
    AllNodes EndIffValue trieAB.root_ ∧
      ∀ k n, trieAB.nodeOf k = some n →
        (n.IsEndNode = true ↔ ∃ (T : CppType) (v : CppVal T), n.value_ = some ⟨T, v⟩) :=
  C19_terminal_flag_matches_kind trieAB trieAB_reachable

/-! ### Child keys -/

/-- C20. Child keys match child characters: in every trie reachable from the empty trie by
`Insert`/`Remove` calls, for every node and every entry `(c, child)` of its children map,
the key character of `child` equals `c`. This holds of every node of the tree, and so of
the child that `GetChildNode(c)` returns at the node of every key. -/
theorem C20_child_keys_match (t : Trie Ty Val) (hr : Reachable t) :
    AllNodes KeysMatch t.root_ ∧
      ∀ k n c child, t.nodeOf k = some n → n.GetChildNode c = some child →
        child.GetKeyChar = c := by
  have h := (reachable_inv hr).1
  refine ⟨h, ?_⟩
  intro k n c child hn hg
  exact allNodes_here (allNodes_deref h hn) _ (mem_children_of_GetChildNode hg)

/-- A witness of C20: the trie that holds "ab" and "ac". -/
theorem C20_child_keys_match_witness :
    AllNodes KeysMatch trieAB_AC.root_ ∧
      ∀ k n c child, trieAB_AC.nodeOf k = some n → n.GetChildNode c = some child →
        child.GetKeyChar = c :=
  C20_child_keys_match trieAB_AC trieAB_AC_reachable

end ClaimsInvariants

section ClaimNoDeadNodes

variable {Ty : Type} {Val : Ty → Type}

/-! ### Dead nodes -/

/-- Replacing the node at a handle keeps a property of every node, when the old and the new
node are in a relation that goes up from a child to its parent and that keeps the property
of the parent. -/
theorem allNodes_store_rel {P : TrieNode Ty Val → Prop}
    {R : TrieNode Ty Val → TrieNode Ty Val → Prop}
    (hR : ∀ (x : TrieNode Ty Val) (c : Char) (old y : TrieNode Ty Val),
      x.GetChildNode c = some old → R old y → R x (x.setChild c y))
    (hP : ∀ (x : TrieNode Ty Val) (c : Char) (old y : TrieNode Ty Val), P x →
      x.GetChildNode c = some old → R old y → P (x.setChild c y))
    {p : Handle} {root n n1 : TrieNode Ty Val} (h : AllNodes P root)
    (hd : deref p root = some n) (h1 : AllNodes P n1) (hk : R n n1) :
    AllNodes P (store p root n1) ∧ R root (store p root n1) := by
  induction p generalizing root with
  | nil =>
    cases hd
    exact ⟨h1, hk⟩
  | cons c p ih =>
    simp only [deref] at hd
    cases hg : root.GetChildNode c with
    | none => simp [hg] at hd
    | some m =>
      rw [hg] at hd
      simp only [store, hg]
      obtain ⟨ih1, ih2⟩ := ih (allNodes_child h hg) hd
      refine ⟨AllNodes.mk _ (hP root c m _ (allNodes_here h) hg ih2) ?_, hR root c m _ hg ih2⟩
      intro e he
      rw [setChild_children] at he
      obtain ⟨e0, he0, rfl⟩ := List.mem_map.1 he
      by_cases hc : (e0.1 == c) = true
      · rw [if_pos hc]
        exact ih1
      · rw [if_neg hc]
        exact allNodes_below h e0 he0

theorem HasChildren_setChild (x : TrieNode Ty Val) (c : Char) (y : TrieNode Ty Val) :
    (x.setChild c y).HasChildren = x.HasChildren := by
  unfold TrieNode.HasChildren
  rw [setChild_children]
  cases x.children_ <;> rfl

theorem noDead_setChild (x : TrieNode Ty Val) (c : Char) (old y : TrieNode Ty Val)
    (_hg : x.GetChildNode c = some old) (_h : NoDead old → NoDead y) :
    NoDead x → NoDead (x.setChild c y) := by
  intro hx hc
  rw [HasChildren_setChild] at hc
  exact hx hc

theorem noDeadBelow_setChild (x : TrieNode Ty Val) (c : Char) (old y : TrieNode Ty Val)
    (hx : NoDeadBelow x) (hg : x.GetChildNode c = some old) (h : NoDead old → NoDead y) :
    NoDeadBelow (x.setChild c y) := by
  intro e he
  rw [setChild_children] at he
  obtain ⟨e0, he0, rfl⟩ := List.mem_map.1 he
  by_cases hc : (e0.1 == c) = true
  · rw [if_pos hc]
    exact h (hx _ (mem_children_of_GetChildNode hg))
  · rw [if_neg hc]
    exact hx e0 he0

theorem noDead_chain (T : Ty) (v : Val T) (ch : Char) (rest : List Char) :
    NoDead (chain T v ch rest : TrieNode Ty Val) := by
  cases rest with
  | nil =>
    intro _
    rfl
  | cons c1 rest =>
    intro h
    cases h

theorem noDeadBelow_chain (T : Ty) (v : Val T) (ch : Char) (rest : List Char) :
    NoDeadBelow (chain T v ch rest : TrieNode Ty Val) := by
  cases rest with
  | nil =>
    intro e he
    cases he
  | cons c1 rest =>
    intro e he
    have : e = (c1, chain T v c1 rest) := by
      simpa [chain] using he
    subst this
    exact noDead_chain T v c1 rest

theorem noDeadBelow_mk_cons_filter {n x : TrieNode Ty Val} (h : NoDeadBelow n) (hx : NoDead x)
    (k : Char) (e : Bool) (c : Char) (f : Char × TrieNode Ty Val → Bool)
    (v : Option ((T : Ty) × Val T)) :
    NoDeadBelow (TrieNode.mk k e ((c, x) :: n.children_.filter f) v) := by
  intro y hy
  rw [children_mk] at hy
  rcases List.mem_cons.1 hy with rfl | hy1
  · exact hx
  · exact h y (List.mem_filter.1 hy1).1

theorem filter_ne_nil_of_multi {l : List (Char × TrieNode Ty Val)} (c : Char)
    (hl : l.length > 1) (hn : (l.map Prod.fst).Nodup) :
    (l.filter fun e => e.1 != c).isEmpty = false := by
  cases l with
  | nil => simp at hl
  | cons e1 l =>
    cases l with
    | nil => simp at hl
    | cons e2 l =>
      simp only [List.map_cons, List.nodup_cons, List.mem_cons, not_or] at hn
      have hne : e1.1 ≠ e2.1 := hn.1.1
      by_cases h1 : e1.1 = c
      · have h2 : e2.1 ≠ c := fun h => hne (h1.trans h.symm)
        rw [List.filter_cons_of_neg (by simpa using h1),
          List.filter_cons_of_pos (by simpa using h2)]
        rfl
      · rw [List.filter_cons_of_pos (by simpa using h1)]
        rfl

/-- The anchor of a removal is not dead afterwards. -/
theorem noDead_RemoveChildNode_anchor {a : TrieNode Ty Val} (c : Char)
    (ha : (a.HasMultiChildren || a.IsEndNode) = true) (hn : NodupKeys a) :
    NoDead (a.RemoveChildNode c) := by
  intro hc
  unfold TrieNode.IsEndNode
  rw [RemoveChildNode_is_end]
  cases hm : a.HasMultiChildren with
  | false =>
    rw [hm] at ha
    simpa using ha
  | true =>
    exfalso
    unfold TrieNode.HasMultiChildren at hm
    have hl : a.children_.length > 1 := by simpa using hm
    have := filter_ne_nil_of_multi c hl hn
    unfold TrieNode.HasChildren at hc
    rw [RemoveChildNode_children, this] at hc
    cases hc

/-- `Insert` makes no dead node. -/
theorem Insert_noDeadBelow {t t1 : Trie Ty Val} {T : Ty} {key : List Char} {v : Val T}
    {b : Bool} (hm : AllNodes KeysMatch t.root_) (h : AllNodes NoDeadBelow t.root_)
    (hi : t.Insert T key v = some (t1, b)) : AllNodes NoDeadBelow t1.root_ := by
  rcases Insert_spec t T key v with ⟨_, hres⟩ | ⟨_, _, p, ch, rest, cur0, cur1, _, hd, hstep, hres⟩
  · rw [hres] at hi
    cases hi
    exact h
  · rw [hres] at hi
    cases hi
    have h0 : AllNodes NoDeadBelow cur0 := allNodes_deref h hd
    obtain ⟨x, hx, _, _, _, hxs⟩ := InsertedAt_eq hstep (allNodes_here (allNodes_deref hm hd))
    have hxa : AllNodes NoDeadBelow x ∧ NoDead x := by
      rcases hxs with rfl | ⟨search, hg, _, rfl⟩
      · exact ⟨allNodes_chain _ T v (noDeadBelow_chain T v) ch rest, noDead_chain T v ch rest⟩
      · have hs := allNodes_child h0 hg
        have hs1 : NoDeadBelow search := allNodes_here hs
        have hs2 : ∀ e, e ∈ search.children_ → AllNodes NoDeadBelow e.2 := allNodes_below hs
        exact ⟨AllNodes.mk _ hs1 hs2, fun _ => rfl⟩
    have h1 : AllNodes NoDeadBelow cur1 := by
      rw [hx]
      exact allNodes_mk_cons_filter h0 hxa.1 _ _ _ _ _
        (noDeadBelow_mk_cons_filter (allNodes_here h0) hxa.2 _ _ _ _ _)
    have hk : NoDead cur0 → NoDead cur1 := by
      intro _ hc
      rw [hx] at hc
      cases hc
    exact (allNodes_store_rel noDead_setChild noDeadBelow_setChild h hd h1 hk).1

/-- `Remove` leaves no dead node behind. -/
theorem Remove_noDeadBelow {t t1 : Trie Ty Val} {key : List Char} {b : Bool}
    (hm : AllNodes KeysMatch t.root_) (hn : AllNodes NodupKeys t.root_)
    (h : AllNodes NoDeadBelow t.root_) (hr : t.Remove key = some (t1, b)) :
    AllNodes NoDeadBelow t1.root_ := by
  by_cases hk : key = []
  · subst hk
    rw [Remove_nil] at hr
    cases hr
    exact h
  · cases hd : deref key t.root_ with
    | none =>
      rw [Remove_missing t key hd] at hr
      cases hr
      exact h
    | some node =>
      cases hc : node.HasChildren with
      | true =>
        obtain ⟨pre, c, p, _, hp, hg, hres⟩ := Remove_inner t key node hk hd hc
        rw [hres] at hr
        cases hr
        have h0 : AllNodes NoDeadBelow p := allNodes_deref h hp
        have hkc : node.key_char_ = c :=
          allNodes_here (allNodes_deref hm hp) _ (mem_children_of_GetChildNode hg)
        rw [relink_eq hkc]
        have h1 : AllNodes NoDeadBelow (TrieNode.mk p.key_char_ p.is_end_
            ((c, node) :: p.children_.filter fun e => e.1 != c) p.value_) :=
          allNodes_mk_cons_filter h0 (allNodes_child h0 hg) _ _ _ _ _
            (noDeadBelow_mk_cons_filter (allNodes_here h0)
              (allNodes_here h0 _ (mem_children_of_GetChildNode hg)) _ _ _ _ _)
        have hk1 : NoDead p → NoDead (TrieNode.mk p.key_char_ p.is_end_
            ((c, node) :: p.children_.filter fun e => e.1 != c) p.value_) := by
          intro _ hc1
          cases hc1
        exact (allNodes_store_rel noDead_setChild noDeadBelow_setChild h hp h1 hk1).1
      | false =>
        rcases Remove_leaf t key node hk hd hc with
          ⟨_, hres⟩ | ⟨p, c, s, a, b1, _, hda, _, _, hanchor, hres⟩
        · rw [hres] at hr
          cases hr
        · rw [hres] at hr
          cases hr
          have h0 : AllNodes NoDeadBelow a := allNodes_deref h hda
          have hb : NoDeadBelow (a.RemoveChildNode c) := by
            intro y hy
            rw [RemoveChildNode_children] at hy
            exact allNodes_here h0 y (List.mem_filter.1 hy).1
          have h1 : AllNodes NoDeadBelow (a.RemoveChildNode c) :=
            allNodes_RemoveChildNode h0 c hb
          have hk1 : NoDead a → NoDead (a.RemoveChildNode c) := fun _ =>
            noDead_RemoveChildNode_anchor c hanchor (allNodes_here (allNodes_deref hn hda))
          exact (allNodes_store_rel noDead_setChild noDeadBelow_setChild h hda h1 hk1).1

theorem reachable_noDeadBelow {t : Trie Ty Val} (h : Reachable t) :
    AllNodes NoDeadBelow t.root_ := by
  induction h with
  | new =>
    refine AllNodes.mk _ ?_ ?_
    · intro e he
      cases he
    · intro e he
      cases he
  | Insert hreach hi ih => exact Insert_noDeadBelow (reachable_inv hreach).1 ih hi
  | Remove hreach hr ih =>
    exact Remove_noDeadBelow (reachable_inv hreach).1 (reachable_nodupKeys hreach) ih hr

/-- When no node has a dead child, no node below the children of a node is dead. -/
theorem allNodes_noDead_of_below {n : TrieNode Ty Val} (h : AllNodes NoDeadBelow n) :
    ∀ e, e ∈ n.children_ → AllNodes NoDead e.2 := by
  induction h with
  | mk n here _ ih =>
    intro e he
    exact AllNodes.mk _ (here e he) (ih e he)

/-- C18. No dead nodes survive: in every trie reachable from the empty trie by
`Insert`/`Remove` calls, every node other than the root that has no children is terminal.
This holds of every node of the trees under the children of the root, and so of the node of
every key that is not empty. -/
theorem C18_no_dead_nodes (t : Trie Ty Val) (hr : Reachable t) :
    (∀ e, e ∈ t.root_.children_ → AllNodes NoDead e.2) ∧
      ∀ k n, k ≠ [] → t.nodeOf k = some n → n.HasChildren = false → n.IsEndNode = true := by
  have h := reachable_noDeadBelow hr
  refine ⟨allNodes_noDead_of_below h, ?_⟩
  intro k n hk hn hc
  obtain ⟨pre, c, p, _, hp, hg⟩ := deref_parent hk hn
  exact allNodes_here (allNodes_deref h hp) _ (mem_children_of_GetChildNode hg) hc

/-- A witness of C18: the trie that holds "ab" and "ac" after `Remove("ab")`. -/
theorem C18_no_dead_nodes_witness :
    (∀ e, e ∈ trieAC.root_.children_ → AllNodes NoDead e.2) ∧
      ∀ k n, k ≠ [] → trieAC.nodeOf k = some n → n.HasChildren = false →
        n.IsEndNode = true :=
  C18_no_dead_nodes trieAC
    (Reachable.Remove trieAB_AC_reachable
      (show trieAB_AC.Remove ['a', 'b'] = some (trieAC, true) from rfl))

end ClaimNoDeadNodes

section ClaimsRootAndPromotion

variable {Ty : Type} {Val : Ty → Type}

/-- C21. The root is never a value node: in every trie reachable from the empty trie by
`Insert`/`Remove` calls, the root exists (it is the node of the empty key), keeps the
sentinel key character NUL, is not terminal and holds no value. -/
theorem C21_root_never_value_node (t : Trie Ty Val) (hr : Reachable t) :
    t.nodeOf [] = some t.root_ ∧ t.root_.GetKeyChar = Char.ofNat 0 ∧
      t.root_.IsEndNode = false ∧ t.root_.value_ = none :=
  ⟨rfl, (reachable_inv hr).2.1, (reachable_inv hr).2.2.1, (reachable_inv hr).2.2.2⟩

/-- A witness of C21: the trie that holds "a" and "aa" after `Remove("a")`, which relinks a
child of the root. -/
theorem C21_root_never_value_node_witness :
    trieA_AA.Remove ['a'] = some (trieA_AA, true) ∧
      trieA_AA.nodeOf [] = some trieA_AA.root_ ∧ trieA_AA.root_.GetKeyChar = Char.ofNat 0 ∧
      trieA_AA.root_.IsEndNode = false ∧ trieA_AA.root_.value_ = none :=
  ⟨rfl, C21_root_never_value_node trieA_AA
    (Reachable.Remove trieA_AA_reachable
      (show trieA_AA.Remove ['a'] = some (trieA_AA, true) from rfl))⟩

/-- C22. Promotion preserves the node: constructing a `TrieNodeWithValue<T>` from an
existing `TrieNode` `n` and a value `v` yields a node with the same key character and
exactly the same children as `n` (the same characters with the same subtrees), with
`is_end_` = true and `GetValue()` = `v`. -/
theorem C22_promotion_preserves_node [DecidableEq Ty] (n : TrieNode Ty Val) (T : Ty)
    (v : Val T) :
    (TrieNodeWithValue.ofTrieNode n T v).GetKeyChar = n.GetKeyChar ∧
      (TrieNodeWithValue.ofTrieNode n T v).children_ = n.children_ ∧
      (∀ c, (TrieNodeWithValue.ofTrieNode n T v).GetChildNode c = n.GetChildNode c ∧
        (TrieNodeWithValue.ofTrieNode n T v).HasChild c = n.HasChild c) ∧
      (TrieNodeWithValue.ofTrieNode n T v).HasChildren = n.HasChildren ∧
      (TrieNodeWithValue.ofTrieNode n T v).IsEndNode = true ∧
      (TrieNodeWithValue.ofTrieNode n T v).value_ = some ⟨T, v⟩ ∧
      TrieNodeWithValue.GetValue (TrieNodeWithValue.ofTrieNode n T v) T = some v := by
  refine ⟨rfl, rfl, fun _ => ⟨rfl, rfl⟩, rfl, rfl, rfl, ?_⟩
  unfold TrieNodeWithValue.GetValue
  simp [TrieNodeWithValue.ofTrieNode]

end ClaimsRootAndPromotion

section ClaimInsertNeverAborts

variable {Ty : Type} {Val : Ty → Type}

/-! ### The traced `Insert` is `Insert` -/

theorem InsertFromNode_traced_fst (T : Ty) (v : Val T) (ch : Char) (rest : List Char)
    (cur : TrieNode Ty Val) :
    (Trie.InsertFromNode.traced T v ch rest cur).1 = Trie.InsertFromNode T v ch rest cur := by
  induction rest generalizing ch cur with
  | nil =>
    simp only [Trie.InsertFromNode.traced, Trie.InsertFromNode]
    cases cur.InsertChildNode ch (TrieNodeWithValue.new ch T v) <;> rfl
  | cons c1 rest ih =>
    simp only [Trie.InsertFromNode.traced, Trie.InsertFromNode]
    cases cur.InsertChildNode ch (TrieNode.new ch) with
    | none => rfl
    | some cur1 =>
      simp only []
      cases cur1.GetChildNode ch with
      | none => rfl
      | some next =>
        simp only []
        rw [← ih c1 next]
        cases h : Trie.InsertFromNode.traced T v c1 rest next with
        | mk o log =>
          cases o <;> rfl

theorem Insert_loopTraced_fst (T : Ty) (v : Val T) (root : TrieNode Ty Val)
    (rest : List Char) (current : Handle) :
    (Trie.Insert.loopTraced T v root rest current).1 = Trie.Insert.loop T v root rest current := by
  induction rest generalizing current with
  | nil => rfl
  | cons ch rest ih =>
    simp only [Trie.Insert.loopTraced, Trie.Insert.loop]
    cases deref current root with
    | none => rfl
    | some cur =>
      simp only []
      cases cur.GetChildNode ch with
      | none =>
        simp only []
        rw [← InsertFromNode_traced_fst]
        cases h : Trie.InsertFromNode.traced T v ch rest cur with
        | mk o log =>
          cases o <;> rfl
      | some search =>
        simp only []
        split
        · rfl
        · exact ih (current ++ [ch])

theorem InsertTraced_fst (t : Trie Ty Val) (T : Ty) (key : List Char) (v : Val T) :
    (t.InsertTraced T key v).1 = t.Insert T key v := by
  unfold Trie.InsertTraced Trie.Insert
  split
  · rfl
  · cases Trie.SearchForKey key t.root_ with
    | some n => rfl
    | none =>
      simp only []
      rw [← Insert_loopTraced_fst]
      cases h : Trie.Insert.loopTraced T v t.root_ key [] with
      | mk o log =>
        cases o with
        | none => rfl
        | some x =>
          obtain ⟨root1, b⟩ := x
          rfl

/-! ### Every logged call succeeds -/

theorem InsertFromNode_traced_log (T : Ty) (v : Val T) (ch : Char) (rest : List Char)
    (cur : TrieNode Ty Val) (h : cur.GetChildNode ch = none) :
    ∀ r, r ∈ (Trie.InsertFromNode.traced T v ch rest cur).2 → r = true := by
  induction rest generalizing ch cur with
  | nil =>
    have hi := InsertChildNode_eq cur ch (TrieNodeWithValue.new ch T v) h rfl
    simp only [Trie.InsertFromNode.traced, hi]
    intro r hr
    simpa using hr
  | cons c1 rest ih =>
    have hi := InsertChildNode_eq cur ch (TrieNode.new ch : TrieNode Ty Val) h rfl
    have hg : (TrieNode.mk cur.key_char_ cur.is_end_
        ((ch, (TrieNode.new ch : TrieNode Ty Val)) :: cur.children_) cur.value_).GetChildNode ch
        = some (TrieNode.new ch) := lookup_cons_self _ _ _
    have hn := ih c1 (TrieNode.new ch : TrieNode Ty Val) rfl
    simp only [Trie.InsertFromNode.traced, hi, hg]
    cases hx : Trie.InsertFromNode.traced T v c1 rest (TrieNode.new ch) with
    | mk o log =>
      rw [hx] at hn
      intro r hr
      cases o with
      | none =>
        rcases List.mem_cons.1 hr with rfl | h1
        · rfl
        · exact hn r h1
      | some x =>
        rcases List.mem_cons.1 hr with rfl | h1
        · rfl
        · exact hn r h1

theorem Insert_loopTraced_log (T : Ty) (v : Val T) (root : TrieNode Ty Val)
    (hm : AllNodes KeysMatch root) (rest : List Char) (current : Handle)
    (cur : TrieNode Ty Val) (hc : deref current root = some cur) :
    ∀ r, r ∈ (Trie.Insert.loopTraced T v root rest current).2 → r = true := by
  induction rest generalizing current cur with
  | nil =>
    intro r hr
    cases hr
  | cons ch rest ih =>
    cases hg : cur.GetChildNode ch with
    | none =>
      have hlog := InsertFromNode_traced_log T v ch rest cur hg
      simp only [Trie.Insert.loopTraced, hc, hg]
      cases hx : Trie.InsertFromNode.traced T v ch rest cur with
      | mk o log =>
        rw [hx] at hlog
        cases o <;> exact hlog
    | some search =>
      by_cases hx : (rest.isEmpty && !search.IsEndNode) = true
      · have hkc : search.key_char_ = ch :=
          allNodes_here (allNodes_deref hm hc) _ (mem_children_of_GetChildNode hg)
        have hi : ((cur.setChild ch (TrieNodeWithValue.movedFrom search)).RemoveChildNode
            ch).InsertChildNode ch (TrieNodeWithValue.ofTrieNode search T v) ≠ none := by
          rw [InsertChildNode_eq _ _ _ (GetChildNode_RemoveChildNode_self _ _)
            (show (TrieNodeWithValue.ofTrieNode search T v).key_char_ = ch from hkc)]
          exact Option.some_ne_none _
        simp only [Trie.Insert.loopTraced, hc, hg, hx, if_true]
        intro r hr
        rw [List.mem_singleton] at hr
        rw [hr]
        exact Option.isSome_iff_ne_none.2 hi
      · have hc1 : deref (current ++ [ch]) root = some search := by
          rw [deref_append, hc]
          simp [deref, hg]
        simp only [Trie.Insert.loopTraced, hc, hg, hx]
        exact ih (current ++ [ch]) search hc1

/-- C23. Insert never aborts: for every trie reachable from the empty trie by
`Insert`/`Remove` calls, every key and every value, `Insert` runs to completion and returns
a boolean, and every `InsertChildNode` call made inside `Insert` and `InsertFromNode`
succeeds: it returns a non-null handle. The calls are those logged by `InsertTraced`, whose
result is the result of `Insert`. -/
theorem C23_insert_never_aborts (t : Trie Ty Val) (hr : Reachable t) (T : Ty)
    (key : List Char) (v : Val T) :
    (∃ t1 b, t.Insert T key v = some (t1, b)) ∧
      (t.InsertTraced T key v).1 = t.Insert T key v ∧
      ∀ r, r ∈ (t.InsertTraced T key v).2 → r = true := by
  refine ⟨?_, InsertTraced_fst t T key v, ?_⟩
  · rcases Insert_spec t T key v with ⟨_, hres⟩ | ⟨_, _, p, ch, rest, cur0, cur1, _, _, _, hres⟩
    · exact ⟨_, _, hres⟩
    · exact ⟨_, _, hres⟩
  · unfold Trie.InsertTraced
    split
    · intro r h
      cases h
    · cases Trie.SearchForKey key t.root_ with
      | some n =>
        intro r h
        cases h
      | none =>
        have hlog := Insert_loopTraced_log T v t.root_ (reachable_inv hr).1 key [] t.root_ rfl
        simp only []
        cases hx : Trie.Insert.loopTraced T v t.root_ key [] with
        | mk o log =>
          rw [hx] at hlog
          cases o with
          | none => exact hlog
          | some x =>
            obtain ⟨root1, b⟩ := x
            exact hlog

/-- A witness of C23: inserting "abc" into the trie that holds "a" makes two
`InsertChildNode` calls, and inserting "a" into the trie that holds "aa" makes one, for the
promoted node. -/
theorem C23_insert_never_aborts_witness :
    (trieA.InsertTraced CppType.int ['a', 'b', 'c'] (7 : Int)).2 = [true, true] ∧
      (trieAA.InsertTraced CppType.int ['a'] (5 : Int)).2 = [true] ∧
      ((∃ t1 b, trieA.Insert CppType.int ['a', 'b', 'c'] (7 : Int) = some (t1, b)) ∧
        (trieA.InsertTraced CppType.int ['a', 'b', 'c'] (7 : Int)).1 =
          trieA.Insert CppType.int ['a', 'b', 'c'] (7 : Int) ∧
        ∀ r, r ∈ (trieA.InsertTraced CppType.int ['a', 'b', 'c'] (7 : Int)).2 → r = true) :=
  ⟨rfl, rfl, C23_insert_never_aborts trieA trieA_reachable CppType.int ['a', 'b', 'c'] (7 : Int)⟩

end ClaimInsertNeverAborts

section ClaimLeafRemovalAnchor

variable {Ty : Type} {Val : Ty → Type}

/-! ### Removal of a key whose node has no children -/

/-- On a key whose node has no children, `Remove` is `DeleteNodeIfNeeded` and the value
true. -/
theorem Remove_eq_DeleteNodeIfNeeded (t : Trie Ty Val) (key : List Char)
    (leaf : TrieNode Ty Val) (hk : key ≠ []) (hd : deref key t.root_ = some leaf)
    (hc : leaf.HasChildren = false) :
    t.Remove key =
      match t.DeleteNodeIfNeeded key with
      | none => none
      | some t1 => some (t1, true) := by
  rcases List.eq_nil_or_concat key with hk1 | ⟨pre, c, hk1⟩
  · exact absurd hk1 hk
  · rw [List.concat_eq_append] at hk1
    subst hk1
    have he : (pre ++ [c]).isEmpty = false := by simp
    have hne : (pre ++ [c] != []) = true := by simp
    simp only [Trie.Remove, he, Bool.false_eq_true, if_false, Remove_loop_root, hd, hc,
      Bool.not_false, Bool.true_and, hne, if_true]

/-- The two outcomes of `Remove` on a key whose node has no children, with the values of
`mark` and `idx` after the loop of `DeleteNodeIfNeeded`. -/
theorem Remove_leaf_loop (t : Trie Ty Val) (key : List Char) (leaf : TrieNode Ty Val)
    (hk : key ≠ []) (hd : deref key t.root_ = some leaf) (hc : leaf.HasChildren = false) :
    (IsChain key t.root_ ∧
        Trie.DeleteNodeIfNeeded.loop t.root_ key 0 (some []) none 0 = some (none, 0) ∧
        t.Remove key = none) ∨
      ∃ p c s a b, key = p ++ c :: s ∧ deref p t.root_ = some a ∧ a.GetChildNode c = some b ∧
        IsChain s b ∧ (a.HasMultiChildren || a.IsEndNode) = true ∧
        Trie.DeleteNodeIfNeeded.loop t.root_ key 0 (some []) none 0 = some (some p, p.length) ∧
        t.Remove key = some (⟨store p t.root_ (a.RemoveChildNode c)⟩, true) := by
  have hrem := Remove_eq_DeleteNodeIfNeeded t key leaf hk hd hc
  rcases DeleteNodeIfNeeded_loop_spec t.root_ key 0 [] t.root_ none 0 leaf rfl hd hc with
    ⟨hch, hres⟩ | ⟨p, c, s, a, b, hsplit, hda, hgc, hch, hab, hres⟩
  · left
    refine ⟨hch, hres, ?_⟩
    rw [hrem]
    simp only [Trie.DeleteNodeIfNeeded, hres]
  · right
    have hres1 : Trie.DeleteNodeIfNeeded.loop t.root_ key 0 (some []) none 0
        = some (some p, p.length) := by
      rw [hres]
      simp
    refine ⟨p, c, s, a, b, hsplit, hda, hgc, hch, hab, hres1, ?_⟩
    have hidx : key.getD p.length (Char.ofNat 0) = c := by
      rw [hsplit, List.getD_append_right _ _ _ _ (Nat.le_refl _)]
      simp
    rw [hrem]
    simp only [Trie.DeleteNodeIfNeeded, hres1, hda, hidx]

/-- C24. With at least two stored keys, leaf removal always finds its anchor: for every
trie reachable from the empty trie by `Insert`/`Remove` calls that stores two distinct keys
`k` and `k2`, the node of `k` having no children, the walk in `DeleteNodeIfNeeded` sets
`mark` to a node on the path of `k`, above the node of `k`, that is terminal or has more
than one child, `Remove(k)` completes and returns true, and afterwards `GetValue<T>(k)` sets
success = false for every type `T`. -/
theorem C24_leaf_removal_finds_anchor [DecidableEq Ty] [∀ T, Inhabited (Val T)]
    (t : Trie Ty Val) (hr : Reachable t) (k k2 : List Char) (n n2 : TrieNode Ty Val)
    (hn : t.nodeOf k = some n) (he : n.IsEndNode = true) (hc : n.HasChildren = false)
    (hn2 : t.nodeOf k2 = some n2) (he2 : n2.IsEndNode = true) (hne : k2 ≠ k) :
    ∃ p s a t1, k = p ++ s ∧ s ≠ [] ∧ t.nodeOf p = some a ∧
      (a.IsEndNode = true ∨ a.HasMultiChildren = true) ∧
      Trie.DeleteNodeIfNeeded.loop t.root_ k 0 (some []) none 0 = some (some p, p.length) ∧
      t.Remove k = some (t1, true) ∧ ∀ T, (t1.GetValue T k).2 = false := by
  have hk : k ≠ [] := by
    intro h0
    subst h0
    have h1 : n = t.root_ := by
      have := hn
      simp only [Trie.nodeOf, deref, Option.some.injEq] at this
      exact this.symm
    subst h1
    have := (reachable_inv hr).2.2.1
    unfold TrieNode.IsEndNode at he
    rw [this] at he
    cases he
  rcases Remove_leaf_loop t k n hk hn hc with
    ⟨hch, _, _⟩ | ⟨p, c, s, a, b, hsplit, hda, hgc, _, hab, hloop, hres⟩
  · have h1 := found_of_IsChain hch k2 hne
    rw [found_of_end hn2 he2] at h1
    cases h1
  · refine ⟨p, c :: s, a, _, hsplit, List.cons_ne_nil _ _, hda, ?_, hloop, hres, ?_⟩
    · cases h1 : a.IsEndNode with
      | true => exact Or.inl rfl
      | false =>
        rw [h1] at hab
        exact Or.inr (by simpa using hab)
    · intro T
      have hf : found k (store p t.root_ (a.RemoveChildNode c)) = none := by
        rw [hsplit, found_store_append hda, found_cons, GetChildNode_RemoveChildNode_self]
        rfl
      have hg : (Trie.mk (store p t.root_ (a.RemoveChildNode c))).GetValue T k
          = (default, false) := GetValue_of_found_none hf T
      rw [hg]

/-- A witness of C24: removing "ab" from the trie that holds "ab" and "ac"; the anchor is
the node of "a", which has two children. -/
theorem C24_leaf_removal_finds_anchor_witness :
    Reachable trieAB_AC ∧
      ∃ p s a t1, ['a', 'b'] = p ++ s ∧ s ≠ [] ∧ trieAB_AC.nodeOf p = some a ∧
        (a.IsEndNode = true ∨ a.HasMultiChildren = true) ∧
        Trie.DeleteNodeIfNeeded.loop trieAB_AC.root_ ['a', 'b'] 0 (some []) none 0
          = some (some p, p.length) ∧
        trieAB_AC.Remove ['a', 'b'] = some (t1, true) ∧
        ∀ T, (t1.GetValue T ['a', 'b']).2 = false :=
  ⟨trieAB_AC_reachable,
    C24_leaf_removal_finds_anchor trieAB_AC trieAB_AC_reachable ['a', 'b'] ['a', 'c']
      (TrieNode.mk 'b' true [] (some ⟨CppType.int, (5 : Int)⟩))
      (TrieNode.mk 'c' true [] (some ⟨CppType.int, (6 : Int)⟩)) rfl rfl rfl rfl rfl
      (by decide)⟩

end ClaimLeafRemovalAnchor

section ClaimRemoveUndoesInsert

variable {Ty : Type} {Val : Ty → Type}

/-! ### The walk of `DeleteNodeIfNeeded` through an anchor and a chain -/

theorem isChain_chain (T : Ty) (v : Val T) (ch : Char) (rest : List Char) :
    IsChain rest (chain T v ch rest : TrieNode Ty Val) := by
  induction rest generalizing ch with
  | nil => rfl
  | cons c1 rest ih =>
    exact ⟨rfl, rfl, chain T v c1 rest, lookup_cons_self _ _ _, ih c1⟩

theorem deref_of_IsChain {rest : List Char} {n : TrieNode Ty Val} (h : IsChain rest n) :
    ∃ leaf, deref rest n = some leaf ∧ leaf.HasChildren = false := by
  induction rest generalizing n with
  | nil => exact ⟨n, rfl, h⟩
  | cons c rest ih =>
    obtain ⟨_, _, m, hg, hm⟩ := h
    obtain ⟨leaf, hl, hc⟩ := ih hm
    exact ⟨leaf, by simp only [deref, hg, hl], hc⟩

/-- Along a chain the loop of `DeleteNodeIfNeeded` leaves `mark` and `idx` alone. -/
theorem DeleteNodeIfNeeded_loop_chain (root : TrieNode Ty Val) (rest : List Char) (i : Nat)
    (cur : Handle) (n : TrieNode Ty Val) (mark : Option Handle) (idx : Nat)
    (hc : deref cur root = some n) (h : IsChain rest n) :
    Trie.DeleteNodeIfNeeded.loop root rest i (some cur) mark idx = some (mark, idx) := by
  induction rest generalizing i cur n with
  | nil => rfl
  | cons c rest ih =>
    obtain ⟨he, hmul, m, hg, hm⟩ := h
    have hc1 : deref (cur ++ [c]) root = some m := by
      rw [deref_append, hc]
      simp [deref, hg]
    have hx : (n.HasMultiChildren || n.IsEndNode) = false := by rw [he, hmul]; rfl
    simp only [Trie.DeleteNodeIfNeeded.loop, hc, hg, hx, Option.isSome_some, if_true]
    simpa using ih (i + 1) (cur ++ [c]) m hc1 hm

/-- The loop of `DeleteNodeIfNeeded` sets `mark` and `idx` at a node that is terminal or
has more than one child, whatever they were before. -/
theorem DeleteNodeIfNeeded_loop_anchor (root : TrieNode Ty Val) (p : List Char) (ch : Char)
    (rest : List Char) (i : Nat) (cur : Handle) (n a b : TrieNode Ty Val)
    (mark : Option Handle) (idx : Nat) (hc : deref cur root = some n)
    (hp : deref p n = some a) (ha : (a.HasMultiChildren || a.IsEndNode) = true)
    (hb : a.GetChildNode ch = some b) :
    Trie.DeleteNodeIfNeeded.loop root (p ++ ch :: rest) i (some cur) mark idx =
      Trie.DeleteNodeIfNeeded.loop root rest (i + p.length + 1) (some (cur ++ p ++ [ch]))
        (some (cur ++ p)) (i + p.length) := by
  induction p generalizing i cur n mark idx with
  | nil =>
    cases hp
    simp only [List.nil_append, Trie.DeleteNodeIfNeeded.loop, hc, hb, ha, Option.isSome_some,
      if_true, List.append_nil, List.length_nil, Nat.add_zero]
  | cons d p ih =>
    simp only [deref] at hp
    cases hg : n.GetChildNode d with
    | none => simp [hg] at hp
    | some m =>
      rw [hg] at hp
      have hc1 : deref (cur ++ [d]) root = some m := by
        rw [deref_append, hc]
        simp [deref, hg]
      have e1 : cur ++ [d] ++ p = cur ++ d :: p := by simp
      have e2 : i + 1 + p.length = i + (d :: p).length := by
        simp only [List.length_cons]
        omega
      have hp1 : deref p m = some a := hp
      by_cases hx : (n.HasMultiChildren || n.IsEndNode) = true
      · have hstep : Trie.DeleteNodeIfNeeded.loop root (d :: (p ++ ch :: rest)) i (some cur)
            mark idx = Trie.DeleteNodeIfNeeded.loop root (p ++ ch :: rest) (i + 1)
              (some (cur ++ [d])) (some cur) i := by
          simp only [Trie.DeleteNodeIfNeeded.loop, hc, hg, hx, Option.isSome_some, if_true]
        rw [List.cons_append, hstep, ih (i + 1) (cur ++ [d]) m (some cur) i hc1 hp1, e1, e2]
      · have hstep : Trie.DeleteNodeIfNeeded.loop root (d :: (p ++ ch :: rest)) i (some cur)
            mark idx = Trie.DeleteNodeIfNeeded.loop root (p ++ ch :: rest) (i + 1)
              (some (cur ++ [d])) mark idx := by
          simp only [Trie.DeleteNodeIfNeeded.loop, hc, hg, hx, Option.isSome_some, if_true]
          simp only [Bool.false_eq_true, if_false]
        rw [List.cons_append, hstep, ih (i + 1) (cur ++ [d]) m mark idx hc1 hp1, e1, e2]

/-! ### Writing a node back -/

theorem setChild_setChild (n : TrieNode Ty Val) (c : Char) (x y : TrieNode Ty Val) :
    (n.setChild c x).setChild c y = n.setChild c y := by
  cases n with
  | mk k e cs v =>
    unfold TrieNode.setChild
    simp only [key_char_mk, is_end_mk, children_mk, value_mk, List.map_map]
    congr 1
    refine List.map_congr_left ?_
    intro a _
    simp only [Function.comp]
    by_cases h : (a.1 == c) = true
    · simp [h]
    · simp [h]

theorem store_store {p : Handle} {root n : TrieNode Ty Val} (h : deref p root = some n)
    (x y : TrieNode Ty Val) : store p (store p root x) y = store p root y := by
  induction p generalizing root with
  | nil => rfl
  | cons c p ih =>
    simp only [deref] at h
    cases hg : root.GetChildNode c with
    | none => simp [hg] at h
    | some m =>
      rw [hg] at h
      have h1 : (root.setChild c (store p m x)).GetChildNode c = some (store p m x) := by
        rw [GetChildNode_setChild_self, hg]
        rfl
      simp only [store, hg, h1, ih h, setChild_setChild]

theorem entry_of_lookup {l : List (Char × TrieNode Ty Val)} {c : Char} {m : TrieNode Ty Val}
    (hn : (l.map Prod.fst).Nodup) (hl : l.lookup c = some m) :
    ∀ e, e ∈ l → e.1 = c → e = (c, m) := by
  induction l with
  | nil =>
    intro e he
    cases he
  | cons x l ih =>
    obtain ⟨a, y⟩ := x
    simp only [List.map_cons, List.nodup_cons] at hn
    intro e he hec
    by_cases hca : c = a
    · subst hca
      rw [lookup_cons_self] at hl
      cases hl
      rcases List.mem_cons.1 he with rfl | h1
      · rfl
      · exact absurd (List.mem_map.2 ⟨e, h1, hec⟩) hn.1
    · rw [lookup_cons_other hca] at hl
      rcases List.mem_cons.1 he with rfl | h1
      · exact absurd hec.symm hca
      · exact ih hn.2 hl e h1 hec

theorem setChild_self {n m : TrieNode Ty Val} {c : Char} (hn : NodupKeys n)
    (hg : n.GetChildNode c = some m) : n.setChild c m = n := by
  cases n with
  | mk k e cs v =>
    unfold TrieNode.setChild
    simp only [key_char_mk, is_end_mk, children_mk, value_mk]
    congr 1
    have : ∀ a, a ∈ cs → (if (a.1 == c) = true then (a.1, m) else a) = a := by
      intro a ha
      by_cases h : (a.1 == c) = true
      · rw [if_pos h]
        have h1 : a.1 = c := by simpa using h
        rw [entry_of_lookup hn hg a ha h1]
      · rw [if_neg h]
    rw [List.map_congr_left this, List.map_id']

theorem store_self {p : Handle} {root n : TrieNode Ty Val} (hn : AllNodes NodupKeys root)
    (h : deref p root = some n) : store p root n = root := by
  induction p generalizing root with
  | nil =>
    cases h
    rfl
  | cons c p ih =>
    simp only [deref] at h
    cases hg : root.GetChildNode c with
    | none => simp [hg] at h
    | some m =>
      rw [hg] at h
      simp only [store, hg, ih (allNodes_child hn hg) h]
      exact setChild_self (allNodes_here hn) hg

theorem RemoveChildNode_mk_cons (n : TrieNode Ty Val) (c : Char) (x : TrieNode Ty Val)
    (h : n.GetChildNode c = none) :
    (TrieNode.mk n.key_char_ n.is_end_ ((c, x) :: n.children_) n.value_).RemoveChildNode c
      = n := by
  cases n with
  | mk k e cs v =>
    have h1 : cs.lookup c = none := h
    unfold TrieNode.RemoveChildNode
    simp only [key_char_mk, is_end_mk, children_mk, value_mk, lookup_cons_self,
      Option.isNone_some, Bool.false_eq_true, if_false]
    rw [List.filter_cons_of_neg (by simp), filter_of_lookup_none h1]

end ClaimRemoveUndoesInsert

section ClaimRemoveUndoesInsertMain

variable {Ty : Type} {Val : Ty → Type}

/-- In a reachable trie that stores a key, the node of every key has a child or is
terminal. -/
theorem node_alive_of_stored {t : Trie Ty Val} (hr : Reachable t) {k0 : List Char}
    {n0 : TrieNode Ty Val} (h0 : t.nodeOf k0 = some n0) (he0 : n0.IsEndNode = true)
    {p : List Char} {cur0 : TrieNode Ty Val} (hd : deref p t.root_ = some cur0) :
    cur0.HasChildren = true ∨ cur0.IsEndNode = true := by
  cases hc : cur0.HasChildren with
  | true => exact Or.inl rfl
  | false =>
    right
    by_cases hp : p = []
    · subst hp
      cases hd
      exfalso
      cases k0 with
      | nil =>
        have h1 : n0 = t.root_ := by
          have := h0
          simp only [Trie.nodeOf, deref, Option.some.injEq] at this
          exact this.symm
        subst h1
        have := (reachable_inv hr).2.2.1
        unfold TrieNode.IsEndNode at he0
        rw [this] at he0
        cases he0
      | cons c0 k0 =>
        have h1 := h0
        simp only [Trie.nodeOf, deref, GetChildNode_of_not_HasChildren hc] at h1
        cases h1
    · obtain ⟨pre, c, pn, _, hpn, hg⟩ := deref_parent hp hd
      exact allNodes_here (allNodes_deref (reachable_noDeadBelow hr) hpn) _
        (mem_children_of_GetChildNode hg) hc

/-- C25. Remove undoes Insert of a fresh path: for every trie reachable from the empty trie
by `Insert`/`Remove` calls that stores at least one key, every non-empty key `k` for which
some character has no node on the path from the root, and every value `v`, `Insert(k, v)`
followed by `Remove(k)` returns true both times and yields the original trie: the same
nodes with the same key characters, terminal flags, values and children (and so the same
trie up to the order of children). -/
theorem C25_remove_undoes_fresh_insert (t : Trie Ty Val) (hr : Reachable t)
    (k0 : List Char) (n0 : TrieNode Ty Val) (h0 : t.nodeOf k0 = some n0)
    (he0 : n0.IsEndNode = true) (k : List Char) (_hk : k ≠ []) (hmiss : t.nodeOf k = none)
    (T : Ty) (v : Val T) :
    ∃ t1 t2, t.Insert T k v = some (t1, true) ∧ t1.Remove k = some (t2, true) ∧ t2 = t := by
  rcases Insert_spec t T k v with
    ⟨hcase, _⟩ | ⟨hkne, _, p, ch, rest, cur0, cur1, hsplit, hd, hstep, hres⟩
  · exfalso
    rcases hcase with h | ⟨n, hn⟩
    · subst h
      cases hmiss
    · rw [SearchForKey_eq_deref] at hn
      unfold Trie.nodeOf at hmiss
      rw [hmiss] at hn
      cases hn
  · rcases hstep with ⟨hg0, hcur1⟩ | ⟨hr0, search, hg, _, _⟩
    · have hd1 : deref p (store p t.root_ cur1) = some cur1 := deref_store hd cur1
      have hgc : cur1.GetChildNode ch = some (chain T v ch rest) := by
        rw [hcur1]
        exact lookup_cons_self _ _ _
      have hchain : IsChain rest (chain T v ch rest : TrieNode Ty Val) :=
        isChain_chain T v ch rest
      obtain ⟨leaf, hleaf, hlc⟩ := deref_of_IsChain hchain
      have hdk : deref k (store p t.root_ cur1) = some leaf := by
        rw [hsplit, deref_store_append hd]
        simp only [deref, hgc, hleaf]
      have hanchor : (cur1.HasMultiChildren || cur1.IsEndNode) = true := by
        rcases node_alive_of_stored hr h0 he0 hd with hc | he
        · have hl : cur0.children_ ≠ [] := by
            intro h
            unfold TrieNode.HasChildren at hc
            rw [h] at hc
            cases hc
          have : cur1.HasMultiChildren = true := by
            rw [hcur1]
            unfold TrieNode.HasMultiChildren
            rw [children_mk, List.length_cons]
            have := List.length_pos.2 hl
            exact decide_eq_true (by omega)
          rw [this]
          rfl
        · have : cur1.IsEndNode = true := by
            rw [hcur1]
            exact he
          rw [this]
          exact Bool.or_true _
      have hdc : deref ([] ++ p ++ [ch]) (store p t.root_ cur1) = some (chain T v ch rest) := by
        rw [List.nil_append, deref_append, hd1]
        simp only [Option.some_bind, deref, hgc]
      have hloop : Trie.DeleteNodeIfNeeded.loop (store p t.root_ cur1) k 0 (some []) none 0
          = some (some p, p.length) := by
        rw [hsplit, DeleteNodeIfNeeded_loop_anchor (store p t.root_ cur1) p ch rest 0 []
          (store p t.root_ cur1) cur1 (chain T v ch rest) none 0 rfl hd1 hanchor hgc,
          DeleteNodeIfNeeded_loop_chain (store p t.root_ cur1) rest _ ([] ++ p ++ [ch])
            (chain T v ch rest) _ _ hdc hchain]
        simp
      have hidx : k.getD p.length (Char.ofNat 0) = ch := by
        rw [hsplit, List.getD_append_right _ _ _ _ (Nat.le_refl _)]
        simp
      have hback : store p (store p t.root_ cur1) (cur1.RemoveChildNode ch) = t.root_ := by
        rw [store_store hd, hcur1, RemoveChildNode_mk_cons cur0 ch _ hg0,
          store_self (reachable_nodupKeys hr) hd]
      refine ⟨_, t, hres, ?_, rfl⟩
      rw [Remove_eq_DeleteNodeIfNeeded (Trie.mk (store p t.root_ cur1)) k leaf hkne hdk hlc]
      simp only [Trie.DeleteNodeIfNeeded, hloop, hd1, hidx, hback]
    · exfalso
      have : deref k t.root_ = some search := by
        rw [hsplit, hr0, deref_append, hd]
        simp only [Option.some_bind, deref, hg]
      unfold Trie.nodeOf at hmiss
      rw [hmiss] at this
      cases this

/-- A witness of C25: inserting "ac" into the trie that holds "ab" and removing it
again. -/
theorem C25_remove_undoes_fresh_insert_witness :
    Reachable trieAB ∧ trieAB.nodeOf ['a', 'c'] = none ∧
      ∃ t1 t2, trieAB.Insert CppType.int ['a', 'c'] (6 : Int) = some (t1, true) ∧
        t1.Remove ['a', 'c'] = some (t2, true) ∧ t2 = trieAB :=
  ⟨trieAB_reachable, rfl,
    C25_remove_undoes_fresh_insert trieAB trieAB_reachable ['a', 'b']
      (TrieNode.mk 'b' true [] (some ⟨CppType.int, (5 : Int)⟩)) rfl rfl ['a', 'c']
      (by decide) rfl CppType.int (6 : Int)⟩

end ClaimRemoveUndoesInsertMain

end bustub
